import Mathlib

/-!
# Pacman: the simulation engine of `main.go`

A shallow embedding of the terminal Pacman game's state machine
(`initialModel` and `Model.Update` of `main.go`) and theorems about it.

Modelling conventions.

* Go `int`, `rune` and `Direction` values are Lean `Int`s, without wrap-around:
  the embedding describes the program on sessions whose integer fields are away
  from the bounds of a 64-bit `int`.  Every reachable session is such a session
  (`reachable_counters_bounded`: the score stays within `[0, 3180]`, `lives`
  within `[-3, 3]`, the timers within `[0, 20]`).
* Slices are lists.  A slice index that is out of range makes the Go program
  panic; the embedding returns `none` there, and the theorems prove that a
  result is produced.
* `math/rand` is a stream of raw draws with a cursor (`Rand`), threaded through
  the tick; `rand.Intn n` reduces the next raw draw modulo `n`.  Theorems
  quantify over every stream.
* The `timer` field of `Model` and the `tea.Cmd` half of the result of `Update`
  belong to the hosting event loop and are not modelled.
-/

namespace Pacman

/-! ## Constants (`main.go`, lines 14-42) -/

/-- Go `rune`. -/
abbrev Rune := Int

/-- Game dimension `width`. -/
def width : Int := 30

/-- Game dimension `height`. -/
def height : Int := 20

/-- Board character `dot`, the code point of `'·'`. -/
def dot : Rune := 183

/-- Board character `wall`, the code point of `'█'`. -/
def wall : Rune := 9608

/-- Board character `powerPellet`, the code point of `'●'`. -/
def powerPellet : Rune := 9679

/-- Board character `emptySpace`, the code point of `' '`. -/
def emptySpace : Rune := 32

/-- Game state `playing`: `iota` is the index of the constant in its block, and
eight constants precede this one. -/
def playing : Int := 8

/-- Game state `won`. -/
def won : Int := 9

/-- Game state `lost`. -/
def lost : Int := 10

/-- Game state `paused`. -/
def paused : Int := 11

/-- Go `type Direction int`. -/
abbrev Direction := Int

/-- Direction `up`. -/
def up : Direction := 0

/-- Direction `down`. -/
def down : Direction := 1

/-- Direction `left`. -/
def left : Direction := 2

/-- Direction `right`. -/
def right : Direction := 3

/-! ## Data model (`main.go`, lines 44-68) -/

/-- Go `struct Ghost`. -/
structure Ghost where
  x : Int
  y : Int
  direction : Direction
  frightened : Bool
  frightenedTimer : Int
deriving DecidableEq, Repr

/-- Go `struct Model`, without the `timer` field. -/
structure Model where
  pacmanX : Int
  pacmanY : Int
  pacmanDirection : Direction
  ghosts : List Ghost
  score : Int
  lives : Int
  board : List (List Rune)
  gameState : Int
  width : Int
  height : Int
  dotCount : Int
  powerMode : Bool
  powerTimer : Int
  level : Int
deriving DecidableEq, Repr

/-- The state of `math/rand`: the raw draws still to come and a cursor. -/
structure Rand where
  draws : Nat → Nat
  cursor : Nat

/-- Go `rand.Intn(n)`: the next raw draw reduced to `[0, n)`. -/
def Rand.Intn (r : Rand) (n : Nat) : Int × Rand :=
  (((r.draws r.cursor % n : Nat) : Int), { r with cursor := r.cursor + 1 })

/-- The messages `Update` distinguishes: a key press (with `msg.String()`), a
timer tick, anything else. -/
inductive Msg where
  | key (s : String)
  | tick
  | other

/-! ## `initialMaze` and `initialModel` (`main.go`, lines 83-168) -/

/-- The 28 strings of `initialMaze`. -/
def initialMaze : List String := [
  "WWWWWWWWWWWWWWWWWWWWWWWWWWWWWW",
  "WDDDDDDDDDDDDWWDDDDDDDDDDDDDDW",
  "WDWWWWDWWWWWDWWDWWWWWDWWWWWDWW",
  "WPDWWWDWWWWWDWWDWWWWWDWWWWWDPW",
  "WDWWWWDWWWWWDWWDWWWWWDWWWWWDWW",
  "WDDDDDDDDDDDDDDDDDDDDDDDDDDDDW",
  "WDWWWWDWWDWWWWWWWWDWWDWWWWWDWW",
  "WDWWWWDWWDWWWWWWWWDWWDWWWWWDWW",
  "WDDDDDDWWDDDDWWDDDDWWDDDDDDWW",
  "WWWWWWDWWWWW WWWW WWWWDWWWWWW",
  "     WDWWWWW WWWW WWWWDW     ",
  "     WDWW          WWDW     ",
  "     WDWW WWWWWWWW WWDW     ",
  "WWWWWWDWW W      W WWDWWWWWWW",
  "      D   W      W   D      ",
  "WWWWWWDWW WWWWWWWW WWDWWWWWWW",
  "     WDWW          WWDW     ",
  "     WDWW WWWWWWWW WWDW     ",
  "WWWWWWDWW WWWWWWWW WWDWWWWWWW",
  "WDDDDDDDDDDDDWWDDDDDDDDDDDDWW",
  "WDWWWWDWWWWWDWWDWWWWWDWWWWWDWW",
  "WPDWWWDWWWWWDWWDWWWWWDWWWWWDPW",
  "WDWWWWDWWWWWDWWDWWWWWDWWWWWDWW",
  "WDDDDDDWWDDDDDDDDDDWWDDDDDDWW",
  "WDWWWWDWWDWWWWWWWWDWWDWWWWWDWW",
  "WDWWWWDWWDWWWWWWWWDWWDWWWWWDWW",
  "WDDDDDDDDDDDDWWDDDDDDDDDDDDWW",
  "WWWWWWWWWWWWWWWWWWWWWWWWWWWWWW"]

/-- The `switch row[x]` of `initialModel`: the board cell for a maze character. -/
def cellOf (c : Char) : Rune :=
  if c = 'W' then wall
  else if c = 'D' then dot
  else if c = 'P' then powerPellet
  else emptySpace

/-- One pass of the inner loop of `initialModel` over the columns `xs`: the cell
written at each column (a zero rune where the maze row is too short, as left
by `make`) and the number of dots counted. -/
def initRow (row : List Char) : List Nat → List Rune × Int
  | [] => ([], 0)
  | x :: xs =>
    let rest := initRow row xs
    match row[x]? with
    | some c => (cellOf c :: rest.1, if c = 'D' then rest.2 + 1 else rest.2)
    | none => (0 :: rest.1, rest.2)

/-- The outer loop of `initialModel` over the rows `ys`: the board rows and the
number of dots counted. -/
def initBoard (maze : List String) : List Nat → List (List Rune) × Int
  | [] => ([], 0)
  | y :: ys =>
    let rest := initBoard maze ys
    match maze[y]? with
    | some row =>
      let cells := initRow row.data (List.range 30)
      (cells.1 :: rest.1, cells.2 + rest.2)
    | none => (List.replicate 30 0 :: rest.1, rest.2)

/-- Go `initialModel()`. -/
def initialModel : Model :=
  let built := initBoard initialMaze (List.range 20)
  { pacmanX := 1
    pacmanY := 1
    pacmanDirection := right
    ghosts := [
      { x := 14, y := 10, direction := up, frightened := false, frightenedTimer := 0 },
      { x := 15, y := 10, direction := up, frightened := false, frightenedTimer := 0 },
      { x := 14, y := 11, direction := up, frightened := false, frightenedTimer := 0 },
      { x := 15, y := 11, direction := up, frightened := false, frightenedTimer := 0 }]
    score := 0
    lives := 3
    board := built.1
    gameState := playing
    width := width
    height := height
    dotCount := built.2
    powerMode := false
    powerTimer := 0
    level := 1 }

/-! ## `Model.Update` (`main.go`, lines 174-341) -/

/-- The `switch` on a direction (lines 206-215 and 274-283): one unit step. -/
def stepDir (d : Direction) (x y : Int) : Int × Int :=
  if d = up then (x, y - 1)
  else if d = down then (x, y + 1)
  else if d = left then (x - 1, y)
  else if d = right then (x + 1, y)
  else (x, y)

/-- The wrap-around of one coordinate (lines 218-227 and 286-295). -/
def wrapCoord (size v : Int) : Int :=
  if v < 0 then size - 1 else if v ≥ size then 0 else v

/-- The wrapped candidate position of a mover at `(x, y)` facing `d`. -/
def candidate (m : Model) (d : Direction) (x y : Int) : Int × Int :=
  (wrapCoord m.width (stepDir d x y).1, wrapCoord m.height (stepDir d x y).2)

/-- The player's wrapped candidate position. -/
abbrev pacmanCandidate (m : Model) : Int × Int :=
  candidate m m.pacmanDirection m.pacmanX m.pacmanY

/-- The wrapped candidate position of the ghost `g`. -/
abbrev ghostCandidate (m : Model) (g : Ghost) : Int × Int :=
  candidate m g.direction g.x g.y

/-- Go `b[y][x]`; `none` is the index-out-of-range panic. -/
def cellAt (b : List (List Rune)) (x y : Int) : Option Rune :=
  if 0 ≤ x ∧ 0 ≤ y then
    match b[y.toNat]? with
    | some row => row[x.toNat]?
    | none => none
  else none

/-- Go `b[y][x] = c`; `none` is the index-out-of-range panic. -/
def setCell (b : List (List Rune)) (x y : Int) (c : Rune) : Option (List (List Rune)) :=
  if 0 ≤ x ∧ 0 ≤ y then
    match b[y.toNat]? with
    | some row =>
      if x.toNat < row.length then some (b.set y.toNat (row.set x.toNat c)) else none
    | none => none
  else none

/-- The range test that guards the wall check (lines 230 and 298). -/
def inBounds (m : Model) (p : Int × Int) : Prop :=
  p.1 ≥ 0 ∧ p.1 < m.width ∧ p.2 ≥ 0 ∧ p.2 < m.height

instance (m : Model) (p : Int × Int) : Decidable (inBounds m p) := by
  unfold inBounds; infer_instance

/-- The loop of lines 245-248: every ghost becomes frightened for 20 ticks. -/
def frightenAll (gs : List Ghost) : List Ghost :=
  gs.map fun g => { g with frightened := true, frightenedTimer := 20 }

/-- The player-movement part of a tick (lines 205-250). -/
def movePacman (m : Model) : Option Model :=
  let p := pacmanCandidate m
  if inBounds m p then
    match cellAt m.board p.1 p.2 with
    | none => none
    | some c =>
      if c ≠ wall then
        if c = dot then
          match setCell m.board p.1 p.2 emptySpace with
          | none => none
          | some b =>
            some { m with pacmanX := p.1, pacmanY := p.2, board := b,
                          score := m.score + 10, dotCount := m.dotCount - 1 }
        else if c = powerPellet then
          match setCell m.board p.1 p.2 emptySpace with
          | none => none
          | some b =>
            some { m with pacmanX := p.1, pacmanY := p.2, board := b,
                          score := m.score + 50, powerMode := true, powerTimer := 20,
                          ghosts := frightenAll m.ghosts }
        else some { m with pacmanX := p.1, pacmanY := p.2 }
      else some m
  else some m

/-- The win check (lines 253-255). -/
def checkWin (m : Model) : Model :=
  if m.dotCount ≤ 0 then { m with gameState := won } else m

/-- The frightened-timer decay of one ghost (lines 260-265). -/
def ghostDecay (g : Ghost) : Ghost :=
  if g.frightened then
    if g.frightenedTimer - 1 ≤ 0 then
      { g with frightenedTimer := g.frightenedTimer - 1, frightened := false }
    else { g with frightenedTimer := g.frightenedTimer - 1 }
  else g

/-- The random change of direction of one ghost (lines 268-270). -/
def ghostAI (g : Ghost) (r : Rand) : Ghost × Rand :=
  if (r.Intn 100).1 < 20 then
    ({ g with direction := ((r.Intn 100).2.Intn 4).1 }, ((r.Intn 100).2.Intn 4).2)
  else (g, (r.Intn 100).2)

/-- The movement attempt of one ghost (lines 273-303). -/
def ghostMove (m : Model) (g : Ghost) (r : Rand) : Option (Ghost × Rand) :=
  let p := ghostCandidate m g
  if inBounds m p then
    match cellAt m.board p.1 p.2 with
    | none => none
    | some c =>
      if c ≠ wall then some ({ g with x := p.1, y := p.2 }, r)
      else some ({ g with direction := (r.Intn 4).1 }, (r.Intn 4).2)
  else some ({ g with direction := (r.Intn 4).1 }, (r.Intn 4).2)

/-- The collision handling of the ghost with index `i` (lines 306-324); `g` is
the value of `m.ghosts[i]`. -/
def ghostCollide (i : Nat) (g : Ghost) (m : Model) : Model :=
  if g.x = m.pacmanX ∧ g.y = m.pacmanY then
    if g.frightened then
      { m with score := m.score + 200,
               ghosts := m.ghosts.set i
                 { g with x := 14 + ((i % 2 : Nat) : Int), y := 10 + ((i / 2 : Nat) : Int),
                          frightened := false } }
    else if m.lives - 1 ≤ 0 then
      { m with lives := m.lives - 1, gameState := lost }
    else
      { m with lives := m.lives - 1, pacmanX := 1, pacmanY := 1 }
  else m

/-- The ghost of index `i` after its timer decay, its random turn and its
movement attempt (lines 259-303), before the collision check. -/
def ghostMoved (i : Nat) (m : Model) (r : Rand) : Option (Ghost × Rand) :=
  match m.ghosts[i]? with
  | none => none
  | some g => ghostMove m (ghostAI (ghostDecay g) r).1 (ghostAI (ghostDecay g) r).2

/-- The body of the ghost loop for index `i` (lines 259-324). -/
def ghostStep (i : Nat) (m : Model) (r : Rand) : Option (Model × Rand) :=
  match ghostMoved i m r with
  | none => none
  | some (g, r1) => some (ghostCollide i g { m with ghosts := m.ghosts.set i g }, r1)

/-- The ghost loop over the indices `is`. -/
def ghostLoop : List Nat → Model → Rand → Option (Model × Rand)
  | [], m, r => some (m, r)
  | i :: is, m, r =>
    match ghostStep i m r with
    | none => none
    | some (m1, r1) => ghostLoop is m1 r1

/-- Go `for i := range m.ghosts` (lines 258-325). -/
def moveGhosts (m : Model) (r : Rand) : Option (Model × Rand) :=
  ghostLoop (List.range m.ghosts.length) m r

/-- The power-mode timer update (lines 328-333). -/
def updatePowerTimer (m : Model) : Model :=
  if m.powerMode then
    if m.powerTimer - 1 ≤ 0 then { m with powerTimer := m.powerTimer - 1, powerMode := false }
    else { m with powerTimer := m.powerTimer - 1 }
  else m

/-- The rest of a playing tick once the player-movement part has produced `m1`
(lines 252-333): win check, ghost loop, power-mode timer. -/
def afterPlayer (m1 : Model) (r : Rand) : Option (Model × Rand) :=
  match moveGhosts (checkWin m1) r with
  | none => none
  | some (m2, r2) => some (updatePowerTimer m2, r2)

/-- The `timer.TickMsg` case of `Update` (lines 202-336). -/
def tick (m : Model) (r : Rand) : Option (Model × Rand) :=
  if m.gameState = playing then
    match movePacman m with
    | none => none
    | some m1 => afterPlayer m1 r
  else some (m, r)

/-- The `tea.KeyMsg` case of `Update` (lines 178-200), `s` being `msg.String()`. -/
def keyPress (m : Model) (s : String) : Model :=
  if s = "ctrl+c" ∨ s = "q" then m
  else if s = "up" ∨ s = "k" then { m with pacmanDirection := up }
  else if s = "down" ∨ s = "j" then { m with pacmanDirection := down }
  else if s = "left" ∨ s = "h" then { m with pacmanDirection := left }
  else if s = "right" ∨ s = "l" then { m with pacmanDirection := right }
  else if s = "p" then
    if m.gameState = paused then { m with gameState := playing }
    else if m.gameState = playing then { m with gameState := paused }
    else m
  else if s = "r" then initialModel
  else m

/-- Go `Model.Update`, on the game fields. -/
def Update (m : Model) (msg : Msg) (r : Rand) : Option (Model × Rand) :=
  match msg with
  | Msg.key s => some (keyPress m s, r)
  | Msg.tick => tick m r
  | Msg.other => some (m, r)

/-- The sessions the program can be in: `initialModel()` and whatever `Update`
makes of a reachable session, for any message and any state of the random
source. -/
inductive Reachable : Model → Prop
  | init : Reachable initialModel
  | step {m m1 : Model} (msg : Msg) (r r1 : Rand) :
      Reachable m → Update m msg r = some (m1, r1) → Reachable m1

/-- Run a list of messages, each with the random source it meets. -/
def run : List (Msg × Rand) → Model → Option Model
  | [], m => some m
  | (msg, r) :: rest, m =>
    match Update m msg r with
    | none => none
    | some (m1, _) => run rest m1

/-! ## Predicates used by the theorems -/

/-- The number of board cells that hold a dot. -/
def countDots : List (List Rune) → Int
  | [] => 0
  | row :: rest => (row.count dot : Int) + countDots rest

/-- The shape `initialModel` gives the board: `height` rows of `width` cells. -/
def BoardShape (b : List (List Rune)) : Prop :=
  b.length = 20 ∧ ∀ row ∈ b, row.length = 30

instance (b : List (List Rune)) : Decidable (BoardShape b) := by
  unfold BoardShape; infer_instance

/-- A well-formed session: the dimension fields hold the constants `width` and
`height`, which nothing in `Update` assigns, and the board has that shape. -/
def WellFormed (m : Model) : Prop :=
  m.width = width ∧ m.height = height ∧ BoardShape m.board

instance (m : Model) : Decidable (WellFormed m) := by
  unfold WellFormed; infer_instance

/-- A position inside `[0, 30) x [0, 20)`. -/
def InRange (x y : Int) : Prop := 0 ≤ x ∧ x < 30 ∧ 0 ≤ y ∧ y < 20

instance (x y : Int) : Decidable (InRange x y) := by
  unfold InRange; infer_instance

/-- The invariant of the reachable sessions: the session is well formed,
`dotCount` is the number of dots on the board, the player and the four ghosts
are inside the board, and a frightened ghost has a positive timer. -/
def Inv (m : Model) : Prop :=
  WellFormed m ∧ m.dotCount = countDots m.board ∧ InRange m.pacmanX m.pacmanY ∧
    m.ghosts.length = 4 ∧ (∀ g ∈ m.ghosts, InRange g.x g.y) ∧
    (∀ g ∈ m.ghosts, g.frightened = true → 0 < g.frightenedTimer)

/-- The fields no ghost step touches. -/
def SameFrame (m m1 : Model) : Prop :=
  m1.board = m.board ∧ m1.dotCount = m.dotCount ∧ m1.width = m.width ∧ m1.height = m.height ∧
    m1.powerMode = m.powerMode ∧ m1.powerTimer = m.powerTimer ∧ m1.level = m.level ∧
    m1.pacmanDirection = m.pacmanDirection ∧ m1.ghosts.length = m.ghosts.length

/-- What a ghost step, or a run of `n` of them, can do to the fields shared
with the player: lives only drop, the game state changes only to `lost` and only
when lives drop, and the score grows by 200 at most `n` times. -/
def GhostEffect (n : Nat) (m m1 : Model) : Prop :=
  m1.lives ≤ m.lives ∧ (m1.gameState = m.gameState ∨ m1.gameState = lost) ∧
    (m1.lives = m.lives → m1.gameState = m.gameState) ∧
    ∃ k : Nat, k ≤ n ∧ m1.score = m.score + 200 * (k : Int)

/-- The number of board cells that hold a power pellet. -/
def countPellets : List (List Rune) → Int
  | [] => 0
  | row :: rest => (row.count powerPellet : Int) + countPellets rest

/-- The number of frightened ghosts. -/
def frightenedCount (gs : List Ghost) : Int :=
  (gs.countP (fun g => g.frightened) : Nat)

/-- The part of the bounds that every step of a tick keeps: the score is not
negative and, together with what is left to earn (10 per dot, 50 per power
pellet and 200 for each ghost that is or can still become frightened), does not
exceed 3180; `lives` is at most 3 and at least 1 unless the game is lost; the
power timer is in `[0, 20]` and positive in power mode; every ghost's timer is
in `[0, 20]`; `level` is 1. -/
def CoreBounds (m : Model) : Prop :=
  0 ≤ m.score ∧
    m.score + 10 * countDots m.board + 850 * countPellets m.board +
      200 * frightenedCount m.ghosts ≤ 3180 ∧
    m.lives ≤ 3 ∧ (m.gameState ≠ lost → 1 ≤ m.lives) ∧
    (m.powerMode = true → 0 < m.powerTimer) ∧ 0 ≤ m.powerTimer ∧ m.powerTimer ≤ 20 ∧
    (∀ g ∈ m.ghosts, 0 ≤ g.frightenedTimer ∧ g.frightenedTimer ≤ 20) ∧ m.level = 1

/-- The bounds of the reachable sessions. -/
def Bounds (m : Model) : Prop := CoreBounds m ∧ -3 ≤ m.lives

/-! ## Concrete sessions and traces -/

/-- A random source that yields the draws of `l`, then zeros. -/
def drawsOf (l : List Nat) : Rand := ⟨fun i => l.getD i 0, 0⟩

/-- The draws of one tick for one ghost: `some d` turns the ghost to direction
`d` (a draw below 20, then `d`); `none` leaves its direction alone (the draw
99) and, the ghost facing a wall, bounces it back to direction `up`. -/
def ghostDraws : Option Nat → List Nat
  | some d => [0, d]
  | none => [99, 0]

/-- A tick in which ghosts 0 and 1 are left alone and ghosts 2 and 3 are
steered by `a` and `b`. -/
def steer (a b : Option Nat) : Msg × Rand :=
  (Msg.tick, drawsOf (ghostDraws none ++ ghostDraws none ++ ghostDraws a ++ ghostDraws b))

/-- The way of ghost 2 from its slot `(14, 11)` to the start cell `(1, 1)`,
after one tick of waiting. -/
def pathOfGhost2 : List (Option Nat) :=
  [none] ++ List.replicate 2 (some 2) ++ List.replicate 3 (some 0) ++
    List.replicate 3 (some 2) ++ List.replicate 3 (some 0) ++ List.replicate 8 (some 2) ++
    List.replicate 4 (some 0)

/-- The way of ghost 3 from its slot `(15, 11)` to the start cell `(1, 1)`. -/
def pathOfGhost3 : List (Option Nat) :=
  List.replicate 3 (some 2) ++ List.replicate 3 (some 0) ++ List.replicate 3 (some 2) ++
    List.replicate 3 (some 0) ++ List.replicate 8 (some 2) ++ List.replicate 4 (some 0)

/-- The key `up`, which parks the player at `(1, 1)` against the wall above,
then 24 ticks in which ghosts 2 and 3 walk to `(1, 1)` and both arrive on the
last tick. -/
def doubleCatchTrace : List (Msg × Rand) :=
  (Msg.key "up", drawsOf []) :: List.zipWith steer pathOfGhost2 pathOfGhost3

/-- The session `doubleCatchTrace` leads to. -/
def doubleCatchSession : Model :=
  (run doubleCatchTrace initialModel).getD initialModel

/-- The draws of a tick in which every ghost keeps its direction and, at a
wall, bounces back to `up`. -/
def idleDraws : Rand :=
  drawsOf (ghostDraws none ++ ghostDraws none ++ ghostDraws none ++ ghostDraws none)

/-- The way of ghost 2 from its slot `(14, 11)` to `(1, 3)`. -/
def pathToPellet : List (Option Nat) :=
  List.replicate 2 (some 2) ++ List.replicate 3 (some 0) ++ List.replicate 3 (some 2) ++
    List.replicate 3 (some 0) ++ List.replicate 8 (some 2) ++ List.replicate 2 (some 0)

/-- The ticks in which ghost 2 follows `pathToPellet` and the other ghosts stay
in their slots. -/
def pelletTicks : List (Msg × Rand) := pathToPellet.map fun a => steer a none

/-- The player waits at `(1, 1)` for 10 ticks, walks down to the power pellet at
`(1, 3)` in 2 ticks and eats it, then waits there facing the wall on its left
for 9 ticks; ghost 2 arrives on the player's cell on the last tick, still
frightened, and is eaten. -/
def eatenGhostTrace : List (Msg × Rand) :=
  [(Msg.key "up", drawsOf [])] ++ pelletTicks.take 10 ++ [(Msg.key "down", drawsOf [])] ++
    (pelletTicks.drop 10).take 2 ++ [(Msg.key "left", drawsOf [])] ++ pelletTicks.drop 12

/-- The session `eatenGhostTrace` leads to. -/
def eatenGhostSession : Model :=
  (run eatenGhostTrace initialModel).getD initialModel

/-- The board without its dots. -/
def clearDots (b : List (List Rune)) : List (List Rune) :=
  b.map fun row => row.map fun c => if c = dot then emptySpace else c

/-- A playing session with one life whose last dot, at `(2, 1)`, lies in front
of the player; ghost 0, not frightened, is about to step onto that cell from the
right and ghost 1, frightened, stands on it facing the wall above. -/
def lastDotSession : Model :=
  { initialModel with
    board := (setCell (clearDots initialModel.board) 2 1 dot).getD []
    dotCount := 1
    lives := 1
    powerMode := true
    powerTimer := 5
    ghosts := [
      { x := 3, y := 1, direction := left, frightened := false, frightenedTimer := 5 },
      { x := 2, y := 1, direction := up, frightened := true, frightenedTimer := 5 },
      { x := 14, y := 11, direction := up, frightened := true, frightenedTimer := 5 },
      { x := 15, y := 11, direction := up, frightened := true, frightenedTimer := 5 }] }

/-- The draws of a tick in which no ghost turns; ghost 0 moves without a
further draw, the others bounce back to `up`. -/
def lastDotDraws : Rand := drawsOf ([99] ++ ghostDraws none ++ ghostDraws none ++ ghostDraws none)

/-- The session one tick before the end of `eatenGhostTrace`: the player waits
on `(1, 3)` and ghost 2, frightened, stands on `(1, 4)` below it. -/
def beforeEatenSession : Model :=
  (run eatenGhostTrace.dropLast initialModel).getD initialModel

/-- The session after the key `down` and one tick from `initialModel()`: the
player stands on `(1, 2)`, the power pellet of `(1, 3)` below it. -/
def beforePelletSession : Model :=
  (run [(Msg.key "down", drawsOf []), (Msg.tick, idleDraws)] initialModel).getD initialModel

/-- The session `doubleCatchTrace` leads to, paused. -/
def pausedSession : Model := keyPress doubleCatchSession "p"

/-- The session after the key `down` and two ticks from `initialModel()`: the
player has just eaten the power pellet of `(1, 3)`. -/
def afterPelletSession : Model :=
  (run [(Msg.key "down", drawsOf []), (Msg.tick, idleDraws), (Msg.tick, idleDraws)]
    initialModel).getD initialModel

/-- The score of the pickup in the player's wrapped candidate cell (lines 236 and
240): 10 for a dot, 50 for a power pellet, 0 otherwise. -/
def pickupScore (m : Model) : Int :=
  match cellAt m.board (pacmanCandidate m).1 (pacmanCandidate m).2 with
  | some c => if c = dot then 10 else if c = powerPellet then 50 else 0
  | none => 0

/-- Whether the step of ghost `i` takes the branch of lines 307-312 (the ghost,
as moved, stands on the player's cell and is frightened): 1 if so, else 0. -/
def ghostEaten (i : Nat) (m : Model) (r : Rand) : Nat :=
  match ghostMoved i m r with
  | some (g, _) => if g.x = m.pacmanX ∧ g.y = m.pacmanY ∧ g.frightened = true then 1 else 0
  | none => 0

/-- The number of steps of the ghost loop over `is` that take the branch of
lines 307-312: the number of frightened ghosts that meet the player. -/
def eatenCount : List Nat → Model → Rand → Nat
  | [], _, _ => 0
  | i :: is, m, r =>
    match ghostStep i m r with
    | some (m1, r1) => ghostEaten i m r + eatenCount is m1 r1
    | none => 0

/-- One of the four cell types. -/
def CellType (c : Rune) : Prop :=
  c = wall ∨ c = dot ∨ c = powerPellet ∨ c = emptySpace

instance (c : Rune) : Decidable (CellType c) := by
  unfold CellType; infer_instance

/-- Every cell of the board is one of the four cell types or the zero rune. -/
def CellsOK (b : List (List Rune)) : Prop :=
  ∀ row ∈ b, ∀ c ∈ row, CellType c ∨ c = 0

instance (b : List (List Rune)) : Decidable (CellsOK b) := by
  unfold CellsOK; infer_instance

/-- The number of board cells that hold the zero rune. -/
def countZeros : List (List Rune) → Nat
  | [] => 0
  | row :: rest => row.count 0 + countZeros rest

/-- The cell at `(x, y)` exists and is not a wall. -/
def NotWall (b : List (List Rune)) (x y : Int) : Prop :=
  ∃ c, cellAt b x y = some c ∧ c ≠ wall

/-- From `afterPelletSession`, at the end of the tick `t` in which the pellet was
eaten: the key `left`, which parks the player against the wall, then `k` ticks
in which nothing moves.  The result is the session at the end of tick `t + k`. -/
def powerRun (k : Nat) : Option Model :=
  run ((Msg.key "left", drawsOf []) :: List.replicate k (Msg.tick, idleDraws))
    afterPelletSession

/-- The fields of a session that tell how power mode goes on: game state, power
mode, power timer, and the number of power pellets on the board. -/
def powerView (m : Model) : Int × Bool × Int × Int :=
  (m.gameState, m.powerMode, m.powerTimer, countPellets m.board)

/-- Every frightened ghost carries the session's power timer, and power mode is
on. -/
def Synced (m : Model) : Prop :=
  ∀ g ∈ m.ghosts, g.frightened = true → g.frightenedTimer = m.powerTimer ∧ m.powerMode = true

instance (m : Model) : Decidable (Synced m) := by
  unfold Synced; infer_instance

/-! ## Theorems -/

/-! ### The board -/

theorem wrapCoord_range (size v : Int) (h : 0 < size) :
    0 ≤ wrapCoord size v ∧ wrapCoord size v < size := by
  unfold wrapCoord
  split_ifs <;> omega

theorem candidate_inBounds (m : Model) (d : Direction) (x y : Int)
    (hw : 0 < m.width) (hh : 0 < m.height) : inBounds m (candidate m d x y) := by
  have h1 := wrapCoord_range m.width (stepDir d x y).1 hw
  have h2 := wrapCoord_range m.height (stepDir d x y).2 hh
  exact ⟨h1.1, h1.2, h2.1, h2.2⟩

theorem cellAt_eq_some {b : List (List Rune)} {x y : Int} {c : Rune} :
    cellAt b x y = some c ↔
      0 ≤ x ∧ 0 ≤ y ∧ ∃ row, b[y.toNat]? = some row ∧ row[x.toNat]? = some c := by
  unfold cellAt
  constructor
  · intro h
    split_ifs at h with hxy
    cases hrow : b[y.toNat]? with
    | none => simp [hrow] at h
    | some row =>
      simp only [hrow] at h
      exact ⟨hxy.1, hxy.2, row, rfl, h⟩
  · rintro ⟨hx, hy, row, hrow, hc⟩
    simp [hx, hy, hrow, hc]

theorem cellAt_of_shape {b : List (List Rune)} (hb : BoardShape b) {x y : Int}
    (hx : 0 ≤ x ∧ x < 30) (hy : 0 ≤ y ∧ y < 20) : ∃ c, cellAt b x y = some c := by
  have hlen : y.toNat < b.length := by rw [hb.1]; omega
  have hrow : (b[y.toNat]).length = 30 := hb.2 _ (List.getElem_mem hlen)
  have hx2 : x.toNat < (b[y.toNat]).length := by rw [hrow]; omega
  refine ⟨(b[y.toNat])[x.toNat], ?_⟩
  rw [cellAt_eq_some]
  exact ⟨hx.1, hy.1, b[y.toNat], List.getElem?_eq_getElem hlen, List.getElem?_eq_getElem hx2⟩

theorem setCell_of_cellAt {b : List (List Rune)} {x y : Int} {c0 : Rune} (c : Rune)
    (h : cellAt b x y = some c0) :
    ∃ row, b[y.toNat]? = some row ∧ row[x.toNat]? = some c0 ∧
      setCell b x y c = some (b.set y.toNat (row.set x.toNat c)) := by
  obtain ⟨hx, hy, row, hrow, hc⟩ := cellAt_eq_some.1 h
  refine ⟨row, hrow, hc, ?_⟩
  have hlt : x.toNat < row.length := by
    obtain ⟨hlt, _⟩ := List.getElem?_eq_some.1 hc
    exact hlt
  unfold setCell
  simp [hx, hy, hrow, hlt]

theorem countDots_set (b : List (List Rune)) (n : Nat) (row row1 : List Rune)
    (hrow : b[n]? = some row) :
    countDots (b.set n row1) = countDots b - (row.count dot : Int) + (row1.count dot : Int) := by
  induction b generalizing n with
  | nil => simp at hrow
  | cons r rest ih =>
    cases n with
    | zero =>
      simp at hrow
      subst hrow
      simp [countDots]
      omega
    | succ k =>
      simp at hrow
      simp [countDots, ih k hrow]
      omega

theorem count_set_row (row : List Rune) (n : Nat) (c0 c : Rune) (h : row[n]? = some c0) :
    ((row.set n c).count dot : Int) =
      (row.count dot : Int) - (if c0 = dot then 1 else 0) + (if c = dot then 1 else 0) := by
  induction row generalizing n with
  | nil => simp at h
  | cons a rest ih =>
    cases n with
    | zero =>
      simp at h
      subst h
      simp only [List.set_cons_zero, List.count_cons, beq_iff_eq]
      split_ifs <;> push_cast <;> omega
    | succ k =>
      simp at h
      simp only [List.set_cons_succ, List.count_cons, beq_iff_eq]
      have := ih k h
      split_ifs at this ⊢ <;> push_cast <;> omega

theorem boardShape_set {b : List (List Rune)} (hb : BoardShape b) (n k : Nat) (row : List Rune)
    (c : Rune) (hrow : b[n]? = some row) : BoardShape (b.set n (row.set k c)) := by
  refine ⟨by simpa using hb.1, ?_⟩
  intro r hr
  rcases List.mem_or_eq_of_mem_set hr with h | h
  · exact hb.2 r h
  · subst h
    have : row ∈ b := List.getElem?_mem hrow
    simpa using hb.2 row this

theorem cellAt_set_self {b : List (List Rune)} {x y : Int} {c0 : Rune} (c : Rune)
    (row : List Rune) (hx : 0 ≤ x) (hy : 0 ≤ y)
    (hrow : b[y.toNat]? = some row) (hc : row[x.toNat]? = some c0) :
    cellAt (b.set y.toNat (row.set x.toNat c)) x y = some c := by
  rw [cellAt_eq_some]
  have h1 : y.toNat < b.length := (List.getElem?_eq_some.1 hrow).1
  have h2 : x.toNat < row.length := (List.getElem?_eq_some.1 hc).1
  exact ⟨hx, hy, row.set x.toNat c, by simp [h1], by simp [h2]⟩

theorem cellAt_set_other {b : List (List Rune)} {x y : Int} (c : Rune)
    (row : List Rune) (hx : 0 ≤ x) (hy : 0 ≤ y) (hrow : b[y.toNat]? = some row)
    (x1 y1 : Int) (hne : (x1, y1) ≠ (x, y)) :
    cellAt (b.set y.toNat (row.set x.toNat c)) x1 y1 = cellAt b x1 y1 := by
  unfold cellAt
  by_cases h0 : 0 ≤ x1 ∧ 0 ≤ y1
  · simp only [h0, and_self, if_true]
    by_cases hy1 : y1 = y
    · subst hy1
      have hx1 : x1.toNat ≠ x.toNat := by
        intro h
        apply hne
        have : x1 = x := by omega
        rw [this]
      have h1 : y1.toNat < b.length := (List.getElem?_eq_some.1 hrow).1
      simp [h1, hrow, List.getElem?_set_ne (Ne.symm hx1)]
    · have : y.toNat ≠ y1.toNat := by omega
      simp [List.getElem?_set_ne this]
  · simp [h0]

/-! ### The player-movement part -/

theorem wellFormed_inBounds {m : Model} (hwf : WellFormed m) (d : Direction) (x y : Int) :
    inBounds m (candidate m d x y) := by
  apply candidate_inBounds
  · rw [hwf.1]; decide
  · rw [hwf.2.1]; decide

theorem wellFormed_cell {m : Model} (hwf : WellFormed m) (d : Direction) (x y : Int) :
    ∃ c, cellAt m.board (candidate m d x y).1 (candidate m d x y).2 = some c := by
  have h := wellFormed_inBounds hwf d x y
  unfold inBounds at h
  rw [hwf.1, hwf.2.1] at h
  simp only [width, height] at h
  exact cellAt_of_shape hwf.2.2 ⟨h.1, h.2.1⟩ ⟨h.2.2.1, h.2.2.2⟩

theorem movePacman_wall (m : Model)
    (hb : inBounds m (pacmanCandidate m))
    (hc : cellAt m.board (pacmanCandidate m).1
      (pacmanCandidate m).2 = some wall) :
    movePacman m = some m := by
  unfold movePacman
  simp [hb, hc]

theorem movePacman_dot (m : Model)
    (hb : inBounds m (pacmanCandidate m))
    (hc : cellAt m.board (pacmanCandidate m).1
      (pacmanCandidate m).2 = some dot) :
    ∃ row, m.board[(pacmanCandidate m).2.toNat]? = some row ∧
      row[(pacmanCandidate m).1.toNat]? = some dot ∧
      movePacman m = some { m with
        pacmanX := (pacmanCandidate m).1,
        pacmanY := (pacmanCandidate m).2,
        board := m.board.set (pacmanCandidate m).2.toNat
          (row.set (pacmanCandidate m).1.toNat emptySpace),
        score := m.score + 10, dotCount := m.dotCount - 1 } := by
  obtain ⟨row, h1, h2, h3⟩ := setCell_of_cellAt emptySpace hc
  refine ⟨row, h1, h2, ?_⟩
  unfold movePacman
  have hne : dot ≠ wall := by decide
  simp [hb, hc, h3, hne]

theorem movePacman_pellet (m : Model)
    (hb : inBounds m (pacmanCandidate m))
    (hc : cellAt m.board (pacmanCandidate m).1
      (pacmanCandidate m).2 = some powerPellet) :
    ∃ row, m.board[(pacmanCandidate m).2.toNat]? = some row ∧
      row[(pacmanCandidate m).1.toNat]? = some powerPellet ∧
      movePacman m = some { m with
        pacmanX := (pacmanCandidate m).1,
        pacmanY := (pacmanCandidate m).2,
        board := m.board.set (pacmanCandidate m).2.toNat
          (row.set (pacmanCandidate m).1.toNat emptySpace),
        score := m.score + 50, powerMode := true, powerTimer := 20,
        ghosts := frightenAll m.ghosts } := by
  obtain ⟨row, h1, h2, h3⟩ := setCell_of_cellAt emptySpace hc
  refine ⟨row, h1, h2, ?_⟩
  unfold movePacman
  have hne : powerPellet ≠ wall := by decide
  have hne2 : powerPellet ≠ dot := by decide
  simp [hb, hc, h3, hne, hne2]

theorem movePacman_plain (m : Model) (c : Rune)
    (hb : inBounds m (pacmanCandidate m))
    (hc : cellAt m.board (pacmanCandidate m).1
      (pacmanCandidate m).2 = some c)
    (h1 : c ≠ wall) (h2 : c ≠ dot) (h3 : c ≠ powerPellet) :
    movePacman m = some { m with
        pacmanX := (pacmanCandidate m).1,
        pacmanY := (pacmanCandidate m).2 } := by
  unfold movePacman
  simp [hb, hc, h1, h2, h3]

/-- Case analysis of the player-movement part on a well-formed session. -/
theorem movePacman_elim (m : Model) (hwf : WellFormed m) (P : Model → Prop)
    (hwall : cellAt m.board (pacmanCandidate m).1
      (pacmanCandidate m).2 = some wall → P m)
    (hplain : ∀ c, cellAt m.board (pacmanCandidate m).1
      (pacmanCandidate m).2 = some c →
      c ≠ wall → c ≠ dot → c ≠ powerPellet →
      P { m with pacmanX := (pacmanCandidate m).1,
                 pacmanY := (pacmanCandidate m).2 })
    (hdot : ∀ row, cellAt m.board (pacmanCandidate m).1
      (pacmanCandidate m).2 = some dot →
      m.board[(pacmanCandidate m).2.toNat]? = some row →
      row[(pacmanCandidate m).1.toNat]? = some dot →
      P { m with
        pacmanX := (pacmanCandidate m).1,
        pacmanY := (pacmanCandidate m).2,
        board := m.board.set (pacmanCandidate m).2.toNat
          (row.set (pacmanCandidate m).1.toNat emptySpace),
        score := m.score + 10, dotCount := m.dotCount - 1 })
    (hpellet : ∀ row, cellAt m.board (pacmanCandidate m).1
      (pacmanCandidate m).2 = some powerPellet →
      m.board[(pacmanCandidate m).2.toNat]? = some row →
      row[(pacmanCandidate m).1.toNat]? = some powerPellet →
      P { m with
        pacmanX := (pacmanCandidate m).1,
        pacmanY := (pacmanCandidate m).2,
        board := m.board.set (pacmanCandidate m).2.toNat
          (row.set (pacmanCandidate m).1.toNat emptySpace),
        score := m.score + 50, powerMode := true, powerTimer := 20,
        ghosts := frightenAll m.ghosts }) :
    ∃ m1, movePacman m = some m1 ∧ P m1 := by
  have hb := wellFormed_inBounds hwf m.pacmanDirection m.pacmanX m.pacmanY
  obtain ⟨c, hc⟩ := wellFormed_cell hwf m.pacmanDirection m.pacmanX m.pacmanY
  by_cases h1 : c = wall
  · subst h1
    exact ⟨m, movePacman_wall m hb hc, hwall hc⟩
  by_cases h2 : c = dot
  · subst h2
    obtain ⟨row, hr1, hr2, hr3⟩ := movePacman_dot m hb hc
    exact ⟨_, hr3, hdot row hc hr1 hr2⟩
  by_cases h3 : c = powerPellet
  · subst h3
    obtain ⟨row, hr1, hr2, hr3⟩ := movePacman_pellet m hb hc
    exact ⟨_, hr3, hpellet row hc hr1 hr2⟩
  exact ⟨_, movePacman_plain m c hb hc h1 h2 h3, hplain c hc h1 h2 h3⟩

/-! ### The ghost loop -/

theorem ghostDecay_pos (g : Ghost) : (ghostDecay g).x = g.x ∧ (ghostDecay g).y = g.y ∧
    (ghostDecay g).direction = g.direction := by
  unfold ghostDecay
  split_ifs <;> simp

theorem ghostAI_fields (g : Ghost) (r : Rand) : (ghostAI g r).1.x = g.x ∧ (ghostAI g r).1.y = g.y ∧
    (ghostAI g r).1.frightened = g.frightened ∧
    (ghostAI g r).1.frightenedTimer = g.frightenedTimer := by
  unfold ghostAI
  split_ifs <;> simp

/-- What the movement attempt of a ghost can produce on a well-formed session:
the ghost keeps its frightened state and either stays where it is or moves onto
its wrapped candidate, which is then not a wall. -/
theorem ghostMove_spec (m : Model) (hwf : WellFormed m) (g : Ghost) (r : Rand) :
    ∃ g1 r1, ghostMove m g r = some (g1, r1) ∧
      g1.frightened = g.frightened ∧ g1.frightenedTimer = g.frightenedTimer ∧
      ((cellAt m.board (ghostCandidate m g).1 (ghostCandidate m g).2 = some wall ∧
          g1.x = g.x ∧ g1.y = g.y) ∨
        (∃ c, cellAt m.board (ghostCandidate m g).1 (ghostCandidate m g).2 = some c ∧ c ≠ wall ∧
          g1.x = (ghostCandidate m g).1 ∧ g1.y = (ghostCandidate m g).2 ∧
          g1.direction = g.direction)) := by
  have hb := wellFormed_inBounds hwf g.direction g.x g.y
  obtain ⟨c, hc⟩ := wellFormed_cell hwf g.direction g.x g.y
  by_cases h1 : c = wall
  · subst h1
    refine ⟨{ g with direction := (r.Intn 4).1 }, (r.Intn 4).2, ?_, rfl, rfl,
      Or.inl ⟨hc, rfl, rfl⟩⟩
    unfold ghostMove
    simp [hb, hc]
  · refine ⟨{ g with x := (ghostCandidate m g).1, y := (ghostCandidate m g).2 }, r, ?_, rfl, rfl,
      Or.inr ⟨c, hc, h1, rfl, rfl, rfl⟩⟩
    unfold ghostMove
    simp [hb, hc, h1]

/-- What `ghostMoved` can produce on a well-formed session. -/
theorem ghostMoved_spec (m : Model) (hwf : WellFormed m) (i : Nat) (g0 : Ghost)
    (hg : m.ghosts[i]? = some g0) (r : Rand) :
    ∃ g r1, ghostMoved i m r = some (g, r1) ∧
      g.frightened = (ghostDecay g0).frightened ∧
      g.frightenedTimer = (ghostDecay g0).frightenedTimer ∧
      ((g.x = g0.x ∧ g.y = g0.y) ∨
        (∃ d c, (g.x, g.y) = candidate m d g0.x g0.y ∧ cellAt m.board g.x g.y = some c ∧
          c ≠ wall)) := by
  obtain ⟨g1, r1, h1, h2, h3, h4⟩ :=
    ghostMove_spec m hwf (ghostAI (ghostDecay g0) r).1 (ghostAI (ghostDecay g0) r).2
  have ha := ghostAI_fields (ghostDecay g0) r
  have hd := ghostDecay_pos g0
  refine ⟨g1, r1, ?_, ?_, ?_, ?_⟩
  · unfold ghostMoved
    simp only [hg]
    exact h1
  · rw [h2, ha.2.2.1]
  · rw [h3, ha.2.2.2]
  · rcases h4 with ⟨_, hx, hy⟩ | ⟨c, hc, hne, hx, hy, _⟩
    · left
      exact ⟨by rw [hx, ha.1, hd.1], by rw [hy, ha.2.1, hd.2.1]⟩
    · right
      refine ⟨(ghostAI (ghostDecay g0) r).1.direction, c, ?_, ?_, hne⟩
      · rw [hx, hy]
        simp only [ghostCandidate, ha.1, ha.2.1, hd.1, hd.2.1]
      · rw [hx, hy]
        exact hc

/-- Case analysis of the body of the ghost loop on a well-formed session. -/
theorem ghostStep_elim (m : Model) (hwf : WellFormed m) (i : Nat) (g0 : Ghost)
    (hg : m.ghosts[i]? = some g0) (r : Rand) (P : Model → Prop)
    (h : ∀ g : Ghost, g.frightened = (ghostDecay g0).frightened →
      g.frightenedTimer = (ghostDecay g0).frightenedTimer →
      ((g.x = g0.x ∧ g.y = g0.y) ∨
        (∃ d c, (g.x, g.y) = candidate m d g0.x g0.y ∧ cellAt m.board g.x g.y = some c ∧
          c ≠ wall)) →
      P (ghostCollide i g { m with ghosts := m.ghosts.set i g })) :
    ∃ m1 r1, ghostStep i m r = some (m1, r1) ∧ P m1 := by
  obtain ⟨g, r1, h1, h2, h3, h4⟩ := ghostMoved_spec m hwf i g0 hg r
  refine ⟨_, r1, ?_, h g h2 h3 h4⟩
  unfold ghostStep
  simp only [h1]

/-- A property kept by every body of the ghost loop at an index below `n` is
kept by the loop over such indices, and the loop produces a result. -/
theorem ghostLoop_elim (P : Model → Prop) (n : Nat)
    (hstep : ∀ i m r, i < n → P m → ∃ m1 r1, ghostStep i m r = some (m1, r1) ∧ P m1) :
    ∀ (is : List Nat), (∀ i ∈ is, i < n) → ∀ m r, P m →
      ∃ m1 r1, ghostLoop is m r = some (m1, r1) ∧ P m1 := by
  intro is
  induction is with
  | nil =>
    intro _ m r hP
    exact ⟨m, r, rfl, hP⟩
  | cons i rest ih =>
    intro hlt m r hP
    obtain ⟨m1, r1, h1, hP1⟩ := hstep i m r (hlt i (List.mem_cons_self i rest)) hP
    obtain ⟨m2, r2, h2, hP2⟩ :=
      ih (fun j hj => hlt j (List.mem_cons_of_mem i hj)) m1 r1 hP1
    refine ⟨m2, r2, ?_, hP2⟩
    simp only [ghostLoop, h1]
    exact h2

/-- The loop invariant rule for `moveGhosts`. -/
theorem moveGhosts_elim (P : Model → Prop) (m : Model) (r : Rand)
    (hstep : ∀ i m0 r0, i < m.ghosts.length → P m0 →
      ∃ m1 r1, ghostStep i m0 r0 = some (m1, r1) ∧ P m1)
    (hP : P m) : ∃ m1 r1, moveGhosts m r = some (m1, r1) ∧ P m1 := by
  unfold moveGhosts
  exact ghostLoop_elim P m.ghosts.length hstep (List.range m.ghosts.length)
    (fun i hi => List.mem_range.1 hi) m r hP

/-- The `tick` of a playing session is its four parts in sequence. -/
theorem tick_elim (m : Model) (r : Rand) (hplay : m.gameState = playing)
    (P : Model → Prop)
    (h : ∃ m1, movePacman m = some m1 ∧
      ∃ m2 r2, moveGhosts (checkWin m1) r = some (m2, r2) ∧ P (updatePowerTimer m2)) :
    ∃ m3 r3, tick m r = some (m3, r3) ∧ P m3 := by
  obtain ⟨m1, h1, m2, r2, h2, hP⟩ := h
  refine ⟨updatePowerTimer m2, r2, ?_, hP⟩
  unfold tick afterPlayer
  simp only [hplay, if_true, h1, h2]

/-- What a key press can do: restart, or change the facing and toggle between
`playing` and `paused`. -/
theorem keyPress_cases (m : Model) (s : String) :
    keyPress m s = initialModel ∨
      ∃ d gs, keyPress m s = { m with pacmanDirection := d, gameState := gs } ∧
        (gs = m.gameState ∨ (m.gameState = paused ∧ gs = playing) ∨
          (m.gameState = playing ∧ gs = paused)) := by
  unfold keyPress
  split_ifs with h1 h2 h3 h4 h5 h6 h7 h8 h9
  all_goals first
    | exact Or.inl rfl
    | exact Or.inr ⟨_, _, rfl, Or.inl rfl⟩
    | exact Or.inr ⟨_, _, rfl, Or.inr (Or.inl ⟨h7, rfl⟩)⟩
    | exact Or.inr ⟨_, _, rfl, Or.inr (Or.inr ⟨h8, rfl⟩)⟩

/-- Induction over the reachable sessions. -/
theorem reachable_induction (P : Model → Prop) (h0 : P initialModel)
    (hkey : ∀ m d gs, P m →
      (gs = m.gameState ∨ (m.gameState = paused ∧ gs = playing) ∨
        (m.gameState = playing ∧ gs = paused)) →
      P { m with pacmanDirection := d, gameState := gs })
    (htick : ∀ m r m1 r1, P m → tick m r = some (m1, r1) → P m1) :
    ∀ m, Reachable m → P m := by
  intro m hm
  induction hm with
  | init => exact h0
  | step msg r r1 _ hu ih =>
    cases msg with
    | key s =>
      simp only [Update, Option.some.injEq, Prod.mk.injEq] at hu
      rw [← hu.1]
      rcases keyPress_cases _ s with h | ⟨d, gs, h, hgs⟩
      · rw [h]; exact h0
      · rw [h]; exact hkey _ d gs ih hgs
    | tick => exact htick _ r _ r1 ih hu
    | other =>
      simp only [Update, Option.some.injEq, Prod.mk.injEq] at hu
      rw [← hu.1]; exact ih

/-! ### The invariant -/

theorem inv_initialModel : Inv initialModel := by
  refine ⟨by decide, by decide, by decide, by decide, by decide, by decide⟩

theorem candidate_inRange {m : Model} (hwf : WellFormed m) (d : Direction) (x y : Int) :
    InRange (candidate m d x y).1 (candidate m d x y).2 := by
  have h := wellFormed_inBounds hwf d x y
  unfold inBounds at h
  rw [hwf.1, hwf.2.1] at h
  simp only [width, height] at h
  exact ⟨h.1, h.2.1, h.2.2.1, h.2.2.2⟩

theorem inv_movePacman (m : Model) (h : Inv m) : ∃ m1, movePacman m = some m1 ∧ Inv m1 := by
  obtain ⟨hwf, hdots, hpac, hlen, hgr, hfr⟩ := h
  have hcand := candidate_inRange hwf m.pacmanDirection m.pacmanX m.pacmanY
  apply movePacman_elim m hwf
  · intro _
    exact ⟨hwf, hdots, hpac, hlen, hgr, hfr⟩
  · intro c _ _ _ _
    exact ⟨hwf, hdots, hcand, hlen, hgr, hfr⟩
  · intro row _ hrow hcell
    refine ⟨⟨hwf.1, hwf.2.1, boardShape_set hwf.2.2 _ _ row _ hrow⟩, ?_, hcand, hlen, hgr, hfr⟩
    show m.dotCount - 1 = countDots _
    rw [countDots_set _ _ row _ hrow, count_set_row row _ dot emptySpace hcell, hdots]
    have : emptySpace ≠ dot := by decide
    simp [this]
  · intro row _ hrow hcell
    refine ⟨⟨hwf.1, hwf.2.1, boardShape_set hwf.2.2 _ _ row _ hrow⟩, ?_, hcand, ?_, ?_, ?_⟩
    · show m.dotCount = countDots _
      rw [countDots_set _ _ row _ hrow, count_set_row row _ powerPellet emptySpace hcell, hdots]
      have h1 : emptySpace ≠ dot := by decide
      have h2 : powerPellet ≠ dot := by decide
      simp [h1, h2]
    · show (frightenAll m.ghosts).length = 4
      simpa [frightenAll] using hlen
    · intro g hg
      simp only [frightenAll, List.mem_map] at hg
      obtain ⟨g0, hg0, rfl⟩ := hg
      exact hgr g0 hg0
    · intro g hg _
      simp only [frightenAll, List.mem_map] at hg
      obtain ⟨g0, _, rfl⟩ := hg
      show (0 : Int) < 20
      decide

theorem inv_checkWin (m : Model) (h : Inv m) : Inv (checkWin m) := by
  unfold checkWin
  split_ifs
  · exact h
  · exact h

theorem inv_updatePowerTimer (m : Model) (h : Inv m) : Inv (updatePowerTimer m) := by
  unfold updatePowerTimer
  split_ifs
  · exact h
  · exact h
  · exact h

theorem ghostDecay_fright (g : Ghost) (h : g.frightened = true → 0 < g.frightenedTimer) :
    (ghostDecay g).frightened = true → 0 < (ghostDecay g).frightenedTimer := by
  unfold ghostDecay
  split_ifs with h1 h2
  · simp
  · intro _
    show 0 < g.frightenedTimer - 1
    omega
  · exact h

theorem respawn_inRange (i : Nat) (hi : i < 4) :
    InRange (14 + ((i % 2 : Nat) : Int)) (10 + ((i / 2 : Nat) : Int)) := by
  unfold InRange
  omega

theorem inv_ghostStep (i : Nat) (m : Model) (r : Rand) (hi : i < 4) (h : Inv m) :
    ∃ m1 r1, ghostStep i m r = some (m1, r1) ∧ Inv m1 := by
  obtain ⟨hwf, hdots, hpac, hlen, hgr, hfr⟩ := h
  have hlt : i < m.ghosts.length := by omega
  have hg0 : m.ghosts[i]? = some m.ghosts[i] := List.getElem?_eq_getElem hlt
  have hmem : m.ghosts[i] ∈ m.ghosts := List.getElem_mem hlt
  apply ghostStep_elim m hwf i _ hg0 r
  intro g hf1 hf2 hpos
  have hgR : InRange g.x g.y := by
    rcases hpos with ⟨hx, hy⟩ | ⟨d, c, hp, _, _⟩
    · rw [hx, hy]; exact hgr _ hmem
    · have := candidate_inRange hwf d m.ghosts[i].x m.ghosts[i].y
      rw [← hp] at this
      exact this
  have hgF : g.frightened = true → 0 < g.frightenedTimer := by
    rw [hf1, hf2]
    exact ghostDecay_fright _ (hfr _ hmem)
  have hset : ∀ g1 : Ghost, InRange g1.x g1.y → (g1.frightened = true → 0 < g1.frightenedTimer) →
      (∀ g2 ∈ m.ghosts.set i g1, InRange g2.x g2.y) ∧
      (∀ g2 ∈ m.ghosts.set i g1, g2.frightened = true → 0 < g2.frightenedTimer) := by
    intro g1 h1 h2
    constructor
    · intro g2 hg2
      rcases List.mem_or_eq_of_mem_set hg2 with h | h
      · exact hgr g2 h
      · rw [h]; exact h1
    · intro g2 hg2
      rcases List.mem_or_eq_of_mem_set hg2 with h | h
      · exact hfr g2 h
      · rw [h]; exact h2
  have hbase := hset g hgR hgF
  unfold ghostCollide
  split_ifs with hc hfright hlives
  · have hres := hset (Ghost.mk (14 + ((i % 2 : Nat) : Int)) (10 + ((i / 2 : Nat) : Int))
      g.direction false g.frightenedTimer) (respawn_inRange i hi) (by simp)
    refine ⟨hwf, hdots, hpac, ?_, ?_, ?_⟩
    · simpa using hlen
    · intro g2 hg2
      apply hres.1 g2
      simpa using hg2
    · intro g2 hg2
      apply hres.2 g2
      simpa using hg2
  · exact ⟨hwf, hdots, hpac, by simpa using hlen, hbase.1, hbase.2⟩
  · have hstart : InRange 1 1 := by decide
    exact ⟨hwf, hdots, hstart, by simpa using hlen, hbase.1, hbase.2⟩
  · exact ⟨hwf, hdots, hpac, by simpa using hlen, hbase.1, hbase.2⟩

theorem inv_moveGhosts (m : Model) (r : Rand) (h : Inv m) :
    ∃ m1 r1, moveGhosts m r = some (m1, r1) ∧ Inv m1 := by
  apply moveGhosts_elim Inv m r _ h
  intro i m0 r0 hi h0
  exact inv_ghostStep i m0 r0 (by rw [h.2.2.2.1] at hi; exact hi) h0

/-- A tick of a session that satisfies the invariant produces a session that
satisfies it. -/
theorem inv_tick (m : Model) (r : Rand) (h : Inv m) :
    ∃ m1 r1, tick m r = some (m1, r1) ∧ Inv m1 := by
  by_cases hplay : m.gameState = playing
  · apply tick_elim m r hplay
    obtain ⟨m1, h1, hI1⟩ := inv_movePacman m h
    obtain ⟨m2, r2, h2, hI2⟩ := inv_moveGhosts (checkWin m1) r (inv_checkWin m1 hI1)
    exact ⟨m1, h1, m2, r2, h2, inv_updatePowerTimer m2 hI2⟩
  · refine ⟨m, r, ?_, h⟩
    unfold tick
    simp [hplay]

/-- Every reachable session satisfies the invariant. -/
theorem inv_reachable (m : Model) (h : Reachable m) : Inv m := by
  apply reachable_induction Inv inv_initialModel _ _ m h
  · intro m d gs hI _
    exact hI
  · intro m r m1 r1 hI ht
    obtain ⟨m2, r2, h2, hI2⟩ := inv_tick m r hI
    rw [h2] at ht
    simp only [Option.some.injEq, Prod.mk.injEq] at ht
    rw [← ht.1]
    exact hI2

/-! ### Frame properties of the ghost loop -/

theorem sameFrame_refl (m : Model) : SameFrame m m :=
  ⟨rfl, rfl, rfl, rfl, rfl, rfl, rfl, rfl, rfl⟩

theorem sameFrame_trans {m m1 m2 : Model} (h1 : SameFrame m m1) (h2 : SameFrame m1 m2) :
    SameFrame m m2 := by
  obtain ⟨a1, a2, a3, a4, a5, a6, a7, a8, a9⟩ := h1
  obtain ⟨b1, b2, b3, b4, b5, b6, b7, b8, b9⟩ := h2
  exact ⟨b1.trans a1, b2.trans a2, b3.trans a3, b4.trans a4, b5.trans a5, b6.trans a6,
    b7.trans a7, b8.trans a8, b9.trans a9⟩

theorem ghostCollide_frame (i : Nat) (g : Ghost) (m : Model) :
    SameFrame m (ghostCollide i g m) := by
  unfold ghostCollide SameFrame
  split_ifs <;> simp

theorem ghostStep_frame {i : Nat} {m m1 : Model} {r r1 : Rand}
    (h : ghostStep i m r = some (m1, r1)) : SameFrame m m1 := by
  unfold ghostStep at h
  cases hm : ghostMoved i m r with
  | none => simp [hm] at h
  | some p =>
    simp only [hm, Option.some.injEq, Prod.mk.injEq] at h
    rw [← h.1]
    have := ghostCollide_frame i p.1 { m with ghosts := m.ghosts.set i p.1 }
    unfold SameFrame at this ⊢
    simpa using this

theorem ghostLoop_frame (is : List Nat) : ∀ {m m1 : Model} {r r1 : Rand},
    ghostLoop is m r = some (m1, r1) → SameFrame m m1 := by
  induction is with
  | nil =>
    intro m m1 r r1 h
    simp only [ghostLoop, Option.some.injEq, Prod.mk.injEq] at h
    rw [← h.1]
    exact sameFrame_refl m
  | cons i rest ih =>
    intro m m1 r r1 h
    simp only [ghostLoop] at h
    cases hs : ghostStep i m r with
    | none => simp [hs] at h
    | some p =>
      simp only [hs] at h
      exact sameFrame_trans (ghostStep_frame hs) (ih h)

theorem moveGhosts_frame {m m1 : Model} {r r1 : Rand}
    (h : moveGhosts m r = some (m1, r1)) : SameFrame m m1 :=
  ghostLoop_frame _ h

theorem wellFormed_of_frame {m m1 : Model} (h : SameFrame m m1) (hwf : WellFormed m) :
    WellFormed m1 := by
  obtain ⟨a1, _, a3, a4, _⟩ := h
  exact ⟨a3.trans hwf.1, a4.trans hwf.2.1, a1 ▸ hwf.2.2⟩

/-- The body of the ghost loop produces a result on a well-formed session, for
every index of a ghost. -/
theorem ghostStep_total (i : Nat) (m : Model) (r : Rand) (hwf : WellFormed m)
    (hi : i < m.ghosts.length) : ∃ m1 r1, ghostStep i m r = some (m1, r1) := by
  obtain ⟨m1, r1, h, _⟩ := ghostStep_elim m hwf i _ (List.getElem?_eq_getElem hi) r
    (fun _ => True) (fun _ _ _ _ => trivial)
  exact ⟨m1, r1, h⟩

/-- The ghost loop produces a result on a well-formed session. -/
theorem moveGhosts_total (m : Model) (r : Rand) (hwf : WellFormed m) :
    ∃ m1 r1, moveGhosts m r = some (m1, r1) := by
  obtain ⟨m1, r1, h, _⟩ := moveGhosts_elim
    (fun m0 => WellFormed m0 ∧ m0.ghosts.length = m.ghosts.length) m r
    (by
      intro i m0 r0 hi h0
      obtain ⟨m1, r1, h1⟩ := ghostStep_total i m0 r0 h0.1 (by rw [h0.2]; exact hi)
      have hf := ghostStep_frame h1
      exact ⟨m1, r1, h1, wellFormed_of_frame hf h0.1, hf.2.2.2.2.2.2.2.2.trans h0.2⟩)
    ⟨hwf, rfl⟩
  exact ⟨m1, r1, h⟩

theorem wellFormed_movePacman (m : Model) (hwf : WellFormed m) :
    ∃ m1, movePacman m = some m1 ∧ WellFormed m1 := by
  apply movePacman_elim m hwf
  · intro _; exact hwf
  · intro _ _ _ _ _; exact hwf
  · intro row _ hrow _
    exact ⟨hwf.1, hwf.2.1, boardShape_set hwf.2.2 _ _ row _ hrow⟩
  · intro row _ hrow _
    exact ⟨hwf.1, hwf.2.1, boardShape_set hwf.2.2 _ _ row _ hrow⟩

theorem wellFormed_checkWin (m : Model) (hwf : WellFormed m) : WellFormed (checkWin m) := by
  unfold checkWin
  split_ifs
  · exact hwf
  · exact hwf

/-- A tick of a well-formed playing session runs its parts in sequence, and each
produces a result. -/
theorem tick_playing (m : Model) (r : Rand) (hwf : WellFormed m)
    (hplay : m.gameState = playing) :
    ∃ m1 m2 r2, movePacman m = some m1 ∧ WellFormed m1 ∧
      moveGhosts (checkWin m1) r = some (m2, r2) ∧ SameFrame (checkWin m1) m2 ∧
      tick m r = some (updatePowerTimer m2, r2) := by
  obtain ⟨m1, h1, hwf1⟩ := wellFormed_movePacman m hwf
  obtain ⟨m2, r2, h2⟩ := moveGhosts_total (checkWin m1) r (wellFormed_checkWin m1 hwf1)
  refine ⟨m1, m2, r2, h1, hwf1, h2, moveGhosts_frame h2, ?_⟩
  unfold tick afterPlayer
  simp only [hplay, if_true, h1, h2]

theorem tick_not_playing (m : Model) (r : Rand) (h : m.gameState ≠ playing) :
    tick m r = some (m, r) := by
  unfold tick
  simp [h]

theorem countDots_nonneg (b : List (List Rune)) : 0 ≤ countDots b := by
  induction b with
  | nil => simp [countDots]
  | cons row rest ih =>
    simp only [countDots]
    omega

theorem movePacman_dotCount (m : Model) (hwf : WellFormed m) :
    ∃ m1, movePacman m = some m1 ∧
      m1.dotCount =
        if cellAt m.board (pacmanCandidate m).1 (pacmanCandidate m).2 = some dot
        then m.dotCount - 1 else m.dotCount := by
  apply movePacman_elim m hwf
  · intro h
    have : wall ≠ dot := by decide
    simp [h, this]
  · intro c h _ h2 _
    simp [h, h2]
  · intro row h _ _
    simp [h]
  · intro row h _ _
    have : powerPellet ≠ dot := by decide
    simp [h, this]

theorem checkWin_dotCount (m : Model) : (checkWin m).dotCount = m.dotCount := by
  unfold checkWin
  split_ifs <;> rfl

theorem updatePowerTimer_dotCount (m : Model) : (updatePowerTimer m).dotCount = m.dotCount := by
  unfold updatePowerTimer
  split_ifs <;> rfl

/-- C1: in every session reachable from `initialModel()` by ticks (whatever the
random draws) and key inputs, `dotCount` is the number of board cells that hold
a dot, so it is never negative; and a tick of such a session produces a session
whose `dotCount` is one less when the game is playing and the player's wrapped
candidate cell holds a dot (the player lands on a dot), and the same
otherwise. -/
theorem dotCount_counts_dots (m : Model) (h : Reachable m) :
    m.dotCount = countDots m.board ∧ 0 ≤ m.dotCount ∧
      ∀ r : Rand, ∃ m1 r1, tick m r = some (m1, r1) ∧
        m1.dotCount =
          if m.gameState = playing ∧
            cellAt m.board (pacmanCandidate m).1 (pacmanCandidate m).2 = some dot
          then m.dotCount - 1 else m.dotCount := by
  have hI := inv_reachable m h
  refine ⟨hI.2.1, ?_, ?_⟩
  · rw [hI.2.1]
    exact countDots_nonneg m.board
  · intro r
    by_cases hplay : m.gameState = playing
    · obtain ⟨m1, m2, r2, h1, _, _, hf, ht⟩ := tick_playing m r hI.1 hplay
      obtain ⟨m1', h1', hd⟩ := movePacman_dotCount m hI.1
      rw [h1] at h1'
      simp only [Option.some.injEq] at h1'
      subst h1'
      refine ⟨_, r2, ht, ?_⟩
      rw [updatePowerTimer_dotCount, hf.2.1, checkWin_dotCount, hd]
      simp [hplay]
    · exact ⟨m, r, tick_not_playing m r hplay, by simp [hplay]⟩

/-- Witness for C1 on the initial session. -/
theorem dotCount_counts_dots_witness :
    initialModel.dotCount = countDots initialModel.board ∧ 0 ≤ initialModel.dotCount :=
  ⟨(dotCount_counts_dots initialModel Reachable.init).1,
    (dotCount_counts_dots initialModel Reachable.init).2.1⟩

/-! ### Reachable sessions: positions and lives -/

theorem reachable_run (tr : List (Msg × Rand)) : ∀ (m m1 : Model),
    Reachable m → run tr m = some m1 → Reachable m1 := by
  induction tr with
  | nil =>
    intro m m1 hm h
    simp only [run, Option.some.injEq] at h
    rw [← h]; exact hm
  | cons a rest ih =>
    intro m m1 hm h
    obtain ⟨msg, r⟩ := a
    simp only [run] at h
    cases hu : Update m msg r with
    | none => simp [hu] at h
    | some p =>
      simp only [hu] at h
      exact ih p.1 m1 (Reachable.step msg r p.2 hm hu) h

/-- C2: on a board of 30 by 20 (the dimension fields of every session), the
one-unit step followed by the wrap-around yields a position inside
`[0, 30) x [0, 20)`, for every direction and every position (in range or not, so
in particular from every in-range position); and in every session reachable from
`initialModel()` by ticks (whatever the random draws) and key inputs, the player
and each of the four ghosts have in-range coordinates. -/
theorem positions_in_range (m : Model) (d : Direction) (x y : Int)
    (hw : m.width = width) (hh : m.height = height)
    (m1 : Model) (h1 : Reachable m1) :
    InRange (candidate m d x y).1 (candidate m d x y).2 ∧
      InRange m1.pacmanX m1.pacmanY ∧ m1.ghosts.length = 4 ∧
      ∀ g ∈ m1.ghosts, InRange g.x g.y := by
  have hI := inv_reachable m1 h1
  refine ⟨?_, hI.2.2.1, hI.2.2.2.1, hI.2.2.2.2.1⟩
  have h1 := wrapCoord_range m.width (stepDir d x y).1 (by rw [hw]; decide)
  have h2 := wrapCoord_range m.height (stepDir d x y).2 (by rw [hh]; decide)
  rw [hw] at h1
  rw [hh] at h2
  simp only [width, height] at h1 h2
  unfold InRange candidate
  rw [hw, hh]
  simp only [width, height]
  exact ⟨h1.1, h1.2, h2.1, h2.2⟩

set_option maxRecDepth 100000 in
theorem doubleCatch_run : run doubleCatchTrace initialModel = some doubleCatchSession := by
  decide

theorem doubleCatch_reachable : Reachable doubleCatchSession :=
  reachable_run doubleCatchTrace initialModel _ Reachable.init doubleCatch_run

/-- Witness for C2: the step to the left from `(0, 14)` wraps to `(29, 14)`, and
the session reached by `doubleCatchTrace` has its player and ghosts in range. -/
theorem positions_in_range_witness :
    InRange (candidate initialModel left 0 14).1 (candidate initialModel left 0 14).2 ∧
      InRange doubleCatchSession.pacmanX doubleCatchSession.pacmanY ∧
      doubleCatchSession.ghosts.length = 4 ∧
      ∀ g ∈ doubleCatchSession.ghosts, InRange g.x g.y :=
  positions_in_range initialModel left 0 14 rfl rfl doubleCatchSession doubleCatch_reachable

set_option maxRecDepth 100000 in
/-- C3 (the code at the failing input): the session reached from
`initialModel()` by `doubleCatchTrace` is playing with one life, ghosts 2 and 3
standing on the player's cell `(1, 1)`; the next tick, with draws that make
both ghosts bounce off the wall above, ends with `lives = -1`. -/
theorem lives_negative_after_tick :
    Reachable doubleCatchSession ∧ doubleCatchSession.gameState = playing ∧
      doubleCatchSession.lives = 1 ∧
      (tick doubleCatchSession idleDraws).map (fun p => (p.1.lives, p.1.gameState)) =
        some (-1, lost) :=
  ⟨doubleCatch_reachable, by decide, by decide, by decide⟩

set_option maxRecDepth 100000 in
theorem eatenGhost_run : run eatenGhostTrace initialModel = some eatenGhostSession := by
  decide

theorem eatenGhost_reachable : Reachable eatenGhostSession :=
  reachable_run eatenGhostTrace initialModel _ Reachable.init eatenGhost_run

set_option maxRecDepth 100000 in
/-- C4 (counterexample): the session reached from `initialModel()` by
`eatenGhostTrace` has a ghost, the one just eaten, that is not frightened and
whose `frightenedTimer` is 10. -/
theorem frightened_flag_counterexample :
    Reachable eatenGhostSession ∧
      eatenGhostSession.ghosts[2]? =
        some { x := 14, y := 11, direction := up, frightened := false, frightenedTimer := 10 } ∧
      ∃ g ∈ eatenGhostSession.ghosts, ¬(g.frightened = true ↔ 0 < g.frightenedTimer) := by
  refine ⟨eatenGhost_reachable, by decide, ?_⟩
  exact ⟨{ x := 14, y := 11, direction := up, frightened := false, frightenedTimer := 10 },
    by decide, by decide⟩

/-- C4 (amended): in every session reachable from `initialModel()` by ticks
(whatever the random draws) and key inputs, every frightened ghost has
`frightenedTimer > 0`. -/
theorem frightened_timer_positive (m : Model) (h : Reachable m) (g : Ghost)
    (hg : g ∈ m.ghosts) (hf : g.frightened = true) : 0 < g.frightenedTimer :=
  (inv_reachable m h).2.2.2.2.2 g hg hf

set_option maxRecDepth 100000 in
/-- Witness for C4 (amended): ghost 0 of the session reached by
`eatenGhostTrace` is frightened, with 10 ticks left. -/
theorem frightened_timer_positive_witness :
    (0 : Int) < (Ghost.mk 14 10 up true 10).frightenedTimer :=
  frightened_timer_positive eatenGhostSession eatenGhost_reachable (Ghost.mk 14 10 up true 10)
    (by decide) rfl

/-! ### What the ghost loop does to lives, score and game state -/

theorem ghostEffect_refl (m : Model) : GhostEffect 0 m m :=
  ⟨le_refl _, Or.inl rfl, fun _ => rfl, 0, le_refl _, by simp⟩

theorem ghostEffect_trans {a b : Nat} {m m1 m2 : Model} (h1 : GhostEffect a m m1)
    (h2 : GhostEffect b m1 m2) : GhostEffect (a + b) m m2 := by
  obtain ⟨a1, a2, a3, k1, hk1, a4⟩ := h1
  obtain ⟨b1, b2, b3, k2, hk2, b4⟩ := h2
  refine ⟨le_trans b1 a1, ?_, ?_, k1 + k2, by omega, ?_⟩
  · rcases b2 with h | h
    · rw [h]; exact a2
    · exact Or.inr h
  · intro h
    have e1 : m1.lives = m.lives := by omega
    have e2 : m2.lives = m1.lives := by omega
    rw [b3 e2, a3 e1]
  · rw [b4, a4]
    push_cast
    ring

theorem ghostCollide_effect (i : Nat) (g : Ghost) (m : Model) :
    GhostEffect 1 m (ghostCollide i g m) := by
  unfold ghostCollide GhostEffect
  split_ifs
  · exact ⟨le_refl _, Or.inl rfl, fun _ => rfl, 1, le_refl _, by simp⟩
  · refine ⟨by simp, Or.inr rfl, ?_, 0, by omega, by simp⟩
    intro h
    simp at h
  · refine ⟨by simp, Or.inl rfl, fun _ => rfl, 0, by omega, by simp⟩
  · exact ⟨le_refl _, Or.inl rfl, fun _ => rfl, 0, by omega, by simp⟩

theorem ghostStep_effect {i : Nat} {m m1 : Model} {r r1 : Rand}
    (h : ghostStep i m r = some (m1, r1)) : GhostEffect 1 m m1 := by
  unfold ghostStep at h
  cases hm : ghostMoved i m r with
  | none => simp [hm] at h
  | some p =>
    simp only [hm, Option.some.injEq, Prod.mk.injEq] at h
    rw [← h.1]
    exact ghostCollide_effect i p.1 { m with ghosts := m.ghosts.set i p.1 }

theorem ghostLoop_effect (is : List Nat) : ∀ {m m1 : Model} {r r1 : Rand},
    ghostLoop is m r = some (m1, r1) → GhostEffect is.length m m1 := by
  induction is with
  | nil =>
    intro m m1 r r1 h
    simp only [ghostLoop, Option.some.injEq, Prod.mk.injEq] at h
    rw [← h.1]
    exact ghostEffect_refl m
  | cons i rest ih =>
    intro m m1 r r1 h
    simp only [ghostLoop] at h
    cases hs : ghostStep i m r with
    | none => simp [hs] at h
    | some p =>
      simp only [hs] at h
      have := ghostEffect_trans (ghostStep_effect hs) (ih h)
      rw [List.length_cons, Nat.add_comm]
      exact this

theorem moveGhosts_effect {m m1 : Model} {r r1 : Rand}
    (h : moveGhosts m r = some (m1, r1)) : GhostEffect m.ghosts.length m m1 := by
  have := ghostLoop_effect _ h
  rwa [List.length_range] at this

theorem updatePowerTimer_fields (m : Model) :
    (updatePowerTimer m).score = m.score ∧ (updatePowerTimer m).lives = m.lives ∧
      (updatePowerTimer m).gameState = m.gameState ∧ (updatePowerTimer m).board = m.board ∧
      (updatePowerTimer m).ghosts = m.ghosts ∧ (updatePowerTimer m).pacmanX = m.pacmanX ∧
      (updatePowerTimer m).pacmanY = m.pacmanY := by
  unfold updatePowerTimer
  split_ifs <;> simp

/-! ### C5 -/

set_option maxRecDepth 100000 in
/-- C5 (counterexample): `lastDotSession` is a well-formed playing session with
`dotCount = 1`, one dot on its board, and that dot in the player's wrapped
candidate cell; its tick under `lastDotDraws` ends with `dotCount = 0`, but with
the score raised by 210 and with `gameState = lost`. -/
theorem last_dot_counterexample :
    WellFormed lastDotSession ∧ lastDotSession.gameState = playing ∧
      lastDotSession.dotCount = 1 ∧ countDots lastDotSession.board = 1 ∧
      cellAt lastDotSession.board (pacmanCandidate lastDotSession).1
        (pacmanCandidate lastDotSession).2 = some dot ∧
      (tick lastDotSession lastDotDraws).map
          (fun p => (p.1.dotCount, p.1.score - lastDotSession.score, p.1.gameState)) =
        some (0, 210, lost) :=
  ⟨by decide, by decide, by decide, by decide, by decide, by decide⟩

/-- C5 (amended): for every well-formed playing session whose `dotCount` is 1
(and matches the board) and whose player's wrapped candidate cell holds that
dot, whatever the ghosts and the random draws, the tick produces a session with
`dotCount = 0` and no dot on the board; the player step and the win check of
that tick raise the score by 10 and set `gameState` to `won`; the ghost loop that
follows adds 200 to the score at most once per ghost and can change `gameState`
only to `lost`, so that at the end of the tick `gameState` is `won` or `lost`,
and `won` when `lives` is unchanged. -/
theorem last_dot_tick (m : Model) (r : Rand) (hwf : WellFormed m)
    (hplay : m.gameState = playing) (hcount : m.dotCount = 1)
    (hboard : m.dotCount = countDots m.board)
    (hdot : cellAt m.board (pacmanCandidate m).1 (pacmanCandidate m).2 = some dot) :
    ∃ m1 m2 r2, movePacman m = some m1 ∧ tick m r = some (m2, r2) ∧
      (checkWin m1).dotCount = 0 ∧ (checkWin m1).score = m.score + 10 ∧
      (checkWin m1).gameState = won ∧
      m2.dotCount = 0 ∧ countDots m2.board = 0 ∧
      (m2.gameState = won ∨ m2.gameState = lost) ∧
      (m2.lives = m.lives → m2.gameState = won) ∧
      ∃ k : Nat, k ≤ m.ghosts.length ∧ m2.score = m.score + 10 + 200 * (k : Int) := by
  obtain ⟨m1, m2, r2, h1, _, h2, hf, ht⟩ := tick_playing m r hwf hplay
  obtain ⟨row, hrow, hcell, hm1⟩ :=
    movePacman_dot m (wellFormed_inBounds hwf _ _ _) hdot
  rw [h1] at hm1
  simp only [Option.some.injEq] at hm1
  have hd1 : m1.dotCount = 0 := by rw [hm1]; show m.dotCount - 1 = 0; omega
  have hb1 : countDots m1.board = 0 := by
    rw [hm1]
    show countDots (m.board.set _ _) = 0
    rw [countDots_set _ _ row _ hrow, count_set_row row _ dot emptySpace hcell, ← hboard]
    have : emptySpace ≠ dot := by decide
    simp [this]
    omega
  have hw : checkWin m1 = { m1 with gameState := won } := by
    unfold checkWin
    simp [hd1]
  have hs1 : m1.score = m.score + 10 := by rw [hm1]
  have hl1 : m1.lives = m.lives := by rw [hm1]
  have hg1 : m1.ghosts = m.ghosts := by rw [hm1]
  obtain ⟨e1, e2, e3, k, hk, e4⟩ := moveGhosts_effect h2
  obtain ⟨u1, u2, u3, u4, _⟩ := updatePowerTimer_fields m2
  rw [hw] at e1 e2 e3 e4 hk hf
  simp only at e1 e2 e3 e4 hk
  refine ⟨m1, updatePowerTimer m2, r2, h1, ht, ?_, ?_, ?_, ?_, ?_, ?_, ?_, k, ?_, ?_⟩
  · rw [hw]; exact hd1
  · rw [hw]; exact hs1
  · rw [hw]
  · rw [updatePowerTimer_dotCount, hf.2.1]; exact hd1
  · rw [u4, hf.1]; exact hb1
  · rw [u3]; exact e2
  · intro h
    rw [u3]
    apply e3
    rw [u2] at h
    omega
  · rw [← hg1]; exact hk
  · rw [u1, e4, hs1]

set_option maxRecDepth 100000 in
/-- Witness for C5 (amended) on `lastDotSession`. -/
theorem last_dot_tick_witness :
    ∃ m1 m2 r2, movePacman lastDotSession = some m1 ∧
      tick lastDotSession lastDotDraws = some (m2, r2) ∧
      (checkWin m1).dotCount = 0 ∧ (checkWin m1).score = lastDotSession.score + 10 ∧
      (checkWin m1).gameState = won ∧
      m2.dotCount = 0 ∧ countDots m2.board = 0 ∧
      (m2.gameState = won ∨ m2.gameState = lost) ∧
      (m2.lives = lastDotSession.lives → m2.gameState = won) ∧
      ∃ k : Nat, k ≤ lastDotSession.ghosts.length ∧
        m2.score = lastDotSession.score + 10 + 200 * (k : Int) :=
  last_dot_tick lastDotSession lastDotDraws (by decide) (by decide) (by decide) (by decide)
    (by decide)

/-! ### C6 - C7: the collision handling of a ghost step -/

theorem ghostMoved_index {i : Nat} {m : Model} {r r1 : Rand} {g : Ghost}
    (h : ghostMoved i m r = some (g, r1)) : i < m.ghosts.length := by
  unfold ghostMoved at h
  cases hg : m.ghosts[i]? with
  | none => simp [hg] at h
  | some g0 => exact (List.getElem?_eq_some.1 hg).1

/-- C6: in the step of ghost `i`, when the ghost's resulting position is the
player's position and the ghost is not frightened, with the game playing and
`lives >= 1` at that point: `lives` drops by exactly 1; if it is then 0 the game
state becomes `lost`; otherwise the player is put on `(1, 1)`, `lives` stays
positive and the game state stays `playing`; the player's facing, the score and
the ghosts (ghost `i` as it moved, the others as they were) are left as they
are by the collision handling. -/
theorem ghost_catches_player (i : Nat) (m : Model) (r r1 : Rand) (g : Ghost)
    (hmoved : ghostMoved i m r = some (g, r1)) (hnf : g.frightened = false)
    (hx : g.x = m.pacmanX) (hy : g.y = m.pacmanY)
    (hplay : m.gameState = playing) (hlives : 1 ≤ m.lives) :
    ∃ m1, ghostStep i m r = some (m1, r1) ∧ m1.lives = m.lives - 1 ∧
      (m1.lives = 0 → m1.gameState = lost) ∧
      (m1.lives ≠ 0 →
        m1.pacmanX = 1 ∧ m1.pacmanY = 1 ∧ 0 < m1.lives ∧ m1.gameState = playing) ∧
      m1.pacmanDirection = m.pacmanDirection ∧ m1.score = m.score ∧
      m1.ghosts = m.ghosts.set i g := by
  refine ⟨ghostCollide i g { m with ghosts := m.ghosts.set i g }, ?_, ?_⟩
  · unfold ghostStep
    simp only [hmoved]
  · unfold ghostCollide
    simp only [hx, hy, hnf, and_self, if_true, Bool.false_eq_true, if_false]
    split_ifs with h0
    · refine ⟨rfl, fun _ => rfl, ?_, rfl, rfl, rfl⟩
      intro hne
      exfalso
      apply hne
      show m.lives - 1 = 0
      omega
    · refine ⟨rfl, ?_, ?_, rfl, rfl, rfl⟩
      · intro h
        exfalso
        apply h0
        show m.lives - 1 ≤ 0
        have : m.lives - 1 = 0 := h
        omega
      · intro _
        refine ⟨rfl, rfl, ?_, hplay⟩
        show 0 < m.lives - 1
        omega

set_option maxRecDepth 100000 in
/-- Witness for C6: in the session reached by `doubleCatchTrace` (one life),
ghost 2 stands on the player's cell `(1, 1)` and bounces off the wall. -/
theorem ghost_catches_player_witness :
    ∃ m1, ghostStep 2 doubleCatchSession (drawsOf [99, 0]) =
        some (m1, ⟨(drawsOf [99, 0]).draws, 2⟩) ∧
      m1.lives = doubleCatchSession.lives - 1 ∧
      (m1.lives = 0 → m1.gameState = lost) ∧
      (m1.lives ≠ 0 →
        m1.pacmanX = 1 ∧ m1.pacmanY = 1 ∧ 0 < m1.lives ∧ m1.gameState = playing) ∧
      m1.pacmanDirection = doubleCatchSession.pacmanDirection ∧
      m1.score = doubleCatchSession.score ∧
      m1.ghosts = doubleCatchSession.ghosts.set 2 (Ghost.mk 1 1 up false 0) :=
  ghost_catches_player 2 doubleCatchSession (drawsOf [99, 0]) ⟨(drawsOf [99, 0]).draws, 2⟩
    (Ghost.mk 1 1 up false 0) (by rfl) rfl (by decide) (by decide) (by decide) (by decide)

/-- C7: in the step of ghost `i`, when the ghost is frightened after its timer
decay and its resulting position is the player's position: `lives` is
unchanged, the score grows by exactly 200, the ghost's `frightened` flag
becomes false and its position becomes `(14 + i % 2, 10 + i / 2)`; the player's
position and the game state are not changed. -/
theorem player_eats_ghost (i : Nat) (m : Model) (r r1 : Rand) (g : Ghost)
    (hmoved : ghostMoved i m r = some (g, r1)) (hf : g.frightened = true)
    (hx : g.x = m.pacmanX) (hy : g.y = m.pacmanY) :
    ∃ m1 g1, ghostStep i m r = some (m1, r1) ∧ m1.lives = m.lives ∧
      m1.score = m.score + 200 ∧ m1.ghosts[i]? = some g1 ∧ g1.frightened = false ∧
      g1.x = 14 + ((i % 2 : Nat) : Int) ∧ g1.y = 10 + ((i / 2 : Nat) : Int) ∧
      m1.pacmanX = m.pacmanX ∧ m1.pacmanY = m.pacmanY ∧ m1.gameState = m.gameState := by
  have hi := ghostMoved_index hmoved
  refine ⟨ghostCollide i g { m with ghosts := m.ghosts.set i g },
    Ghost.mk (14 + ((i % 2 : Nat) : Int)) (10 + ((i / 2 : Nat) : Int)) g.direction false
      g.frightenedTimer, ?_, ?_⟩
  · unfold ghostStep
    simp only [hmoved]
  · unfold ghostCollide
    rw [if_pos ⟨hx, hy⟩, if_pos hf]
    refine ⟨rfl, rfl, ?_, rfl, rfl, rfl, rfl, rfl, rfl⟩
    simp [hi]

set_option maxRecDepth 100000 in
/-- Witness for C7: one tick before the end of `eatenGhostTrace`, ghost 2 is
frightened and steps up from `(1, 4)` onto the player's cell `(1, 3)`. -/
theorem player_eats_ghost_witness :
    ∃ m1 g1, ghostStep 2 beforeEatenSession (drawsOf [0, 0]) =
        some (m1, ⟨(drawsOf [0, 0]).draws, 2⟩) ∧
      m1.lives = beforeEatenSession.lives ∧ m1.score = beforeEatenSession.score + 200 ∧
      m1.ghosts[2]? = some g1 ∧ g1.frightened = false ∧
      g1.x = 14 + ((2 % 2 : Nat) : Int) ∧ g1.y = 10 + ((2 / 2 : Nat) : Int) ∧
      m1.pacmanX = beforeEatenSession.pacmanX ∧ m1.pacmanY = beforeEatenSession.pacmanY ∧
      m1.gameState = beforeEatenSession.gameState :=
  player_eats_ghost 2 beforeEatenSession (drawsOf [0, 0]) ⟨(drawsOf [0, 0]).draws, 2⟩
    (Ghost.mk 1 3 up true 10) (by rfl) rfl (by decide) (by decide)

/-! ### C8 - C10: the movement attempts -/

theorem tick_eq_afterPlayer {m m1 : Model} (r : Rand) (hplay : m.gameState = playing)
    (h1 : movePacman m = some m1) : tick m r = afterPlayer m1 r := by
  unfold tick
  rw [if_pos hplay, h1]

/-- C8: for every well-formed playing session whose player's wrapped candidate
cell holds a dot, the player-movement part of the tick (after which the tick
goes on with the win check, the ghosts and the power timer) moves the player
onto that cell, sets that cell to `emptySpace`, adds exactly 10 to the score,
takes exactly 1 from `dotCount`, changes no other board cell, and leaves
`powerMode`, `powerTimer` and the ghosts as they are. -/
theorem player_eats_dot (m : Model) (r : Rand) (hwf : WellFormed m)
    (hplay : m.gameState = playing)
    (hdot : cellAt m.board (pacmanCandidate m).1 (pacmanCandidate m).2 = some dot) :
    ∃ m1, movePacman m = some m1 ∧ tick m r = afterPlayer m1 r ∧
      m1.pacmanX = (pacmanCandidate m).1 ∧ m1.pacmanY = (pacmanCandidate m).2 ∧
      cellAt m1.board (pacmanCandidate m).1 (pacmanCandidate m).2 = some emptySpace ∧
      m1.score = m.score + 10 ∧ m1.dotCount = m.dotCount - 1 ∧
      (∀ x y : Int, (x, y) ≠ pacmanCandidate m → cellAt m1.board x y = cellAt m.board x y) ∧
      m1.powerMode = m.powerMode ∧ m1.powerTimer = m.powerTimer ∧ m1.ghosts = m.ghosts := by
  obtain ⟨row, hrow, hcell, hm1⟩ := movePacman_dot m (wellFormed_inBounds hwf _ _ _) hdot
  obtain ⟨hx, hy, _⟩ := cellAt_eq_some.1 hdot
  refine ⟨_, hm1, tick_eq_afterPlayer r hplay hm1, rfl, rfl, ?_, rfl, rfl, ?_, rfl, rfl, rfl⟩
  · exact cellAt_set_self emptySpace row hx hy hrow hcell
  · intro x y hne
    exact cellAt_set_other emptySpace row hx hy hrow x y hne

set_option maxRecDepth 100000 in
/-- Witness for C8: in `initialModel()` the player at `(1, 1)` faces the dot of
`(2, 1)`. -/
theorem player_eats_dot_witness :
    ∃ m1, movePacman initialModel = some m1 ∧
      tick initialModel idleDraws = afterPlayer m1 idleDraws ∧
      m1.pacmanX = (pacmanCandidate initialModel).1 ∧
      m1.pacmanY = (pacmanCandidate initialModel).2 ∧
      cellAt m1.board (pacmanCandidate initialModel).1 (pacmanCandidate initialModel).2 =
        some emptySpace ∧
      m1.score = initialModel.score + 10 ∧ m1.dotCount = initialModel.dotCount - 1 ∧
      (∀ x y : Int, (x, y) ≠ pacmanCandidate initialModel →
        cellAt m1.board x y = cellAt initialModel.board x y) ∧
      m1.powerMode = initialModel.powerMode ∧ m1.powerTimer = initialModel.powerTimer ∧
      m1.ghosts = initialModel.ghosts :=
  player_eats_dot initialModel idleDraws (by decide) (by decide) (by decide)

/-- C9: for every well-formed playing session whose player's wrapped candidate
cell holds a power pellet, the player-movement part of the tick moves the
player onto that cell, sets that cell to `emptySpace`, adds exactly 50 to the
score, leaves `dotCount` as it is, sets `powerMode = true` and `powerTimer = 20`,
and sets `frightened = true` and `frightenedTimer = 20` on every ghost,
whatever its state was. -/
theorem player_eats_pellet (m : Model) (r : Rand) (hwf : WellFormed m)
    (hplay : m.gameState = playing)
    (hpellet : cellAt m.board (pacmanCandidate m).1 (pacmanCandidate m).2 = some powerPellet) :
    ∃ m1, movePacman m = some m1 ∧ tick m r = afterPlayer m1 r ∧
      m1.pacmanX = (pacmanCandidate m).1 ∧ m1.pacmanY = (pacmanCandidate m).2 ∧
      cellAt m1.board (pacmanCandidate m).1 (pacmanCandidate m).2 = some emptySpace ∧
      m1.score = m.score + 50 ∧ m1.dotCount = m.dotCount ∧
      m1.powerMode = true ∧ m1.powerTimer = 20 ∧
      m1.ghosts = m.ghosts.map (fun g => { g with frightened := true, frightenedTimer := 20 }) ∧
      m1.ghosts.length = m.ghosts.length ∧
      ∀ g ∈ m1.ghosts, g.frightened = true ∧ g.frightenedTimer = 20 := by
  obtain ⟨row, hrow, hcell, hm1⟩ := movePacman_pellet m (wellFormed_inBounds hwf _ _ _) hpellet
  obtain ⟨hx, hy, _⟩ := cellAt_eq_some.1 hpellet
  refine ⟨_, hm1, tick_eq_afterPlayer r hplay hm1, rfl, rfl, ?_, rfl, rfl, rfl, rfl, rfl, ?_, ?_⟩
  · exact cellAt_set_self emptySpace row hx hy hrow hcell
  · show (frightenAll m.ghosts).length = m.ghosts.length
    simp [frightenAll]
  · intro g hg
    have hg1 : g ∈ frightenAll m.ghosts := hg
    simp only [frightenAll, List.mem_map] at hg1
    obtain ⟨g0, _, rfl⟩ := hg1
    exact ⟨rfl, rfl⟩

set_option maxRecDepth 100000 in
/-- Witness for C9: in `beforePelletSession` the player at `(1, 2)` faces the
power pellet of `(1, 3)`. -/
theorem player_eats_pellet_witness :
    ∃ m1, movePacman beforePelletSession = some m1 ∧
      tick beforePelletSession idleDraws = afterPlayer m1 idleDraws ∧
      m1.pacmanX = (pacmanCandidate beforePelletSession).1 ∧
      m1.pacmanY = (pacmanCandidate beforePelletSession).2 ∧
      cellAt m1.board (pacmanCandidate beforePelletSession).1
        (pacmanCandidate beforePelletSession).2 = some emptySpace ∧
      m1.score = beforePelletSession.score + 50 ∧
      m1.dotCount = beforePelletSession.dotCount ∧
      m1.powerMode = true ∧ m1.powerTimer = 20 ∧
      m1.ghosts = beforePelletSession.ghosts.map
        (fun g => { g with frightened := true, frightenedTimer := 20 }) ∧
      m1.ghosts.length = beforePelletSession.ghosts.length ∧
      ∀ g ∈ m1.ghosts, g.frightened = true ∧ g.frightenedTimer = 20 :=
  player_eats_pellet beforePelletSession idleDraws (by decide) (by decide) (by decide)

/-- C10: on a well-formed session, the movement attempt of the player and that
of a ghost read the cell at the mover's wrapped candidate position; if it is a
wall the mover's position is unchanged, otherwise the mover's position becomes
the wrapped candidate.  A rejected move of the player leaves the whole session
(board, score and `dotCount` included) unchanged, so repeating the attempt is
again a no-op. -/
theorem wall_blocks_movers (m : Model) (g : Ghost) (r : Rand) (hwf : WellFormed m) :
    (∃ c m1, cellAt m.board (pacmanCandidate m).1 (pacmanCandidate m).2 = some c ∧
        movePacman m = some m1 ∧
        (c = wall → m1.pacmanX = m.pacmanX ∧ m1.pacmanY = m.pacmanY ∧ m1.board = m.board ∧
          m1.score = m.score ∧ m1.dotCount = m.dotCount ∧ m1 = m ∧ movePacman m1 = some m1) ∧
        (c ≠ wall → m1.pacmanX = (pacmanCandidate m).1 ∧ m1.pacmanY = (pacmanCandidate m).2)) ∧
      (∃ c g1 r1, cellAt m.board (ghostCandidate m g).1 (ghostCandidate m g).2 = some c ∧
        ghostMove m g r = some (g1, r1) ∧
        (c = wall → g1.x = g.x ∧ g1.y = g.y) ∧
        (c ≠ wall → g1.x = (ghostCandidate m g).1 ∧ g1.y = (ghostCandidate m g).2)) := by
  constructor
  · obtain ⟨c, hc⟩ := wellFormed_cell hwf m.pacmanDirection m.pacmanX m.pacmanY
    have hb := wellFormed_inBounds hwf m.pacmanDirection m.pacmanX m.pacmanY
    by_cases hw : c = wall
    · subst hw
      have hm := movePacman_wall m hb hc
      exact ⟨wall, m, hc, hm, fun _ => ⟨rfl, rfl, rfl, rfl, rfl, rfl, hm⟩,
        fun h => absurd rfl h⟩
    · refine ⟨c, ?_⟩
      obtain ⟨m1, hm1, hP⟩ := movePacman_elim m hwf
        (fun m1 => m1.pacmanX = (pacmanCandidate m).1 ∧ m1.pacmanY = (pacmanCandidate m).2)
        (fun h => by rw [hc] at h; exact absurd (Option.some.inj h) hw)
        (fun _ _ _ _ _ => ⟨rfl, rfl⟩) (fun _ _ _ _ => ⟨rfl, rfl⟩) (fun _ _ _ _ => ⟨rfl, rfl⟩)
      exact ⟨m1, hc, hm1, fun h => absurd h hw, fun _ => hP⟩
  · obtain ⟨g1, r1, h1, _, _, h4⟩ := ghostMove_spec m hwf g r
    rcases h4 with ⟨hc, hx, hy⟩ | ⟨c, hc, hne, hx, hy, _⟩
    · exact ⟨wall, g1, r1, hc, h1, fun _ => ⟨hx, hy⟩, fun h => absurd rfl h⟩
    · exact ⟨c, g1, r1, hc, h1, fun h => absurd h hne, fun _ => ⟨hx, hy⟩⟩

set_option maxRecDepth 100000 in
/-- Witness for C10 on the session reached by `doubleCatchTrace` (the player
faces the wall above `(1, 1)`) with ghost 0 in its slot. -/
theorem wall_blocks_movers_witness :
    (∃ c m1, cellAt doubleCatchSession.board (pacmanCandidate doubleCatchSession).1
          (pacmanCandidate doubleCatchSession).2 = some c ∧
        movePacman doubleCatchSession = some m1 ∧
        (c = wall → m1.pacmanX = doubleCatchSession.pacmanX ∧
          m1.pacmanY = doubleCatchSession.pacmanY ∧ m1.board = doubleCatchSession.board ∧
          m1.score = doubleCatchSession.score ∧ m1.dotCount = doubleCatchSession.dotCount ∧
          m1 = doubleCatchSession ∧ movePacman m1 = some m1) ∧
        (c ≠ wall → m1.pacmanX = (pacmanCandidate doubleCatchSession).1 ∧
          m1.pacmanY = (pacmanCandidate doubleCatchSession).2)) ∧
      (∃ c g1 r1, cellAt doubleCatchSession.board
          (ghostCandidate doubleCatchSession (Ghost.mk 14 10 up false 0)).1
          (ghostCandidate doubleCatchSession (Ghost.mk 14 10 up false 0)).2 = some c ∧
        ghostMove doubleCatchSession (Ghost.mk 14 10 up false 0) idleDraws = some (g1, r1) ∧
        (c = wall → g1.x = (Ghost.mk 14 10 up false 0).x ∧ g1.y = (Ghost.mk 14 10 up false 0).y) ∧
        (c ≠ wall →
          g1.x = (ghostCandidate doubleCatchSession (Ghost.mk 14 10 up false 0)).1 ∧
          g1.y = (ghostCandidate doubleCatchSession (Ghost.mk 14 10 up false 0)).2)) :=
  wall_blocks_movers doubleCatchSession (Ghost.mk 14 10 up false 0) idleDraws (by decide)

/-! ### Bounds on the counters of the reachable sessions -/

theorem count_set_row_pellet (row : List Rune) (n : Nat) (c0 c : Rune) (h : row[n]? = some c0) :
    ((row.set n c).count powerPellet : Int) =
      (row.count powerPellet : Int) - (if c0 = powerPellet then 1 else 0) +
        (if c = powerPellet then 1 else 0) := by
  induction row generalizing n with
  | nil => simp at h
  | cons a rest ih =>
    cases n with
    | zero =>
      simp at h
      subst h
      simp only [List.set_cons_zero, List.count_cons, beq_iff_eq]
      split_ifs <;> push_cast <;> omega
    | succ k =>
      simp at h
      simp only [List.set_cons_succ, List.count_cons, beq_iff_eq]
      have := ih k h
      split_ifs at this ⊢ <;> push_cast <;> omega

theorem countPellets_set (b : List (List Rune)) (n : Nat) (row row1 : List Rune)
    (hrow : b[n]? = some row) :
    countPellets (b.set n row1) =
      countPellets b - (row.count powerPellet : Int) + (row1.count powerPellet : Int) := by
  induction b generalizing n with
  | nil => simp at hrow
  | cons r rest ih =>
    cases n with
    | zero =>
      simp at hrow
      subst hrow
      simp [countPellets]
      omega
    | succ k =>
      simp at hrow
      simp [countPellets, ih k hrow]
      omega

theorem countPellets_nonneg (b : List (List Rune)) : 0 ≤ countPellets b := by
  induction b with
  | nil => simp [countPellets]
  | cons row rest ih =>
    simp only [countPellets]
    omega

theorem frightenedCount_nonneg (gs : List Ghost) : 0 ≤ frightenedCount gs := by
  unfold frightenedCount
  omega

theorem frightenedCount_le_length (gs : List Ghost) : frightenedCount gs ≤ gs.length := by
  unfold frightenedCount
  have := @List.countP_le_length Ghost (fun g : Ghost => g.frightened) gs
  omega

theorem frightenedCount_set (gs : List Ghost) (i : Nat) (g0 g : Ghost) (h : gs[i]? = some g0) :
    frightenedCount (gs.set i g) =
      frightenedCount gs - (if g0.frightened = true then 1 else 0) +
        (if g.frightened = true then 1 else 0) := by
  unfold frightenedCount
  induction gs generalizing i with
  | nil => simp at h
  | cons a rest ih =>
    cases i with
    | zero =>
      simp at h
      subst h
      simp only [List.set_cons_zero, List.countP_cons]
      split_ifs <;> push_cast <;> omega
    | succ k =>
      simp at h
      simp only [List.set_cons_succ, List.countP_cons]
      have := ih k h
      split_ifs at this ⊢ <;> push_cast <;> omega


theorem frightenedCount_frightenAll (gs : List Ghost) :
    frightenedCount (frightenAll gs) ≤ gs.length := by
  have := frightenedCount_le_length (frightenAll gs)
  simpa [frightenAll] using this

theorem ghostDecay_bounds (g : Ghost)
    (h1 : g.frightened = true → 0 < g.frightenedTimer)
    (h2 : 0 ≤ g.frightenedTimer ∧ g.frightenedTimer ≤ 20) :
    ((ghostDecay g).frightened = true → g.frightened = true) ∧
      0 ≤ (ghostDecay g).frightenedTimer ∧ (ghostDecay g).frightenedTimer ≤ 20 := by
  unfold ghostDecay
  split_ifs with hf ht
  · have := h1 hf
    refine ⟨by simp, ?_, ?_⟩
    · show 0 ≤ g.frightenedTimer - 1
      omega
    · show g.frightenedTimer - 1 ≤ 20
      omega
  · have := h1 hf
    refine ⟨fun _ => hf, ?_, ?_⟩
    · show 0 ≤ g.frightenedTimer - 1
      omega
    · show g.frightenedTimer - 1 ≤ 20
      omega
  · exact ⟨fun h => h, h2.1, h2.2⟩

theorem core_initialModel : CoreBounds initialModel := by
  refine ⟨by decide, by decide, by decide, by decide, by decide, by decide, by decide,
    by decide, by decide⟩

theorem movePacman_some_unique {m m1 m2 : Model} (h1 : movePacman m = some m1)
    (h2 : movePacman m = some m2) : m1 = m2 := by
  rw [h1] at h2
  exact Option.some.inj h2

theorem core_movePacman (m m1 : Model) (hI : Inv m) (hB : CoreBounds m)
    (h : movePacman m = some m1) : CoreBounds m1 := by
  obtain ⟨m2, h2, hP⟩ := movePacman_elim m hI.1 CoreBounds
    (fun _ => hB) (fun _ _ _ _ _ => hB)
    (by
      intro row _ hrow hcell
      obtain ⟨b1, b2, b3, b4, b5, b6, b7, b8, b9⟩ := hB
      refine ⟨?_, ?_, b3, b4, b5, b6, b7, b8, b9⟩
      · show 0 ≤ m.score + 10
        omega
      · show m.score + 10 + 10 * countDots (m.board.set _ _) +
          850 * countPellets (m.board.set _ _) + 200 * frightenedCount m.ghosts ≤ 3180
        rw [countDots_set _ _ row _ hrow, count_set_row row _ dot emptySpace hcell,
          countPellets_set _ _ row _ hrow, count_set_row_pellet row _ dot emptySpace hcell]
        have e1 : emptySpace ≠ dot := by decide
        have e2 : emptySpace ≠ powerPellet := by decide
        have e3 : dot ≠ powerPellet := by decide
        simp only [e1, e2, e3, if_true, if_false]
        omega)
    (by
      intro row _ hrow hcell
      obtain ⟨b1, b2, b3, b4, b5, b6, b7, b8, b9⟩ := hB
      refine ⟨?_, ?_, b3, b4, ?_, ?_, ?_, ?_, b9⟩
      · show 0 ≤ m.score + 50
        omega
      · show m.score + 50 + 10 * countDots (m.board.set _ _) +
          850 * countPellets (m.board.set _ _) + 200 * frightenedCount (frightenAll m.ghosts)
            ≤ 3180
        rw [countDots_set _ _ row _ hrow, count_set_row row _ powerPellet emptySpace hcell,
          countPellets_set _ _ row _ hrow,
          count_set_row_pellet row _ powerPellet emptySpace hcell]
        have e1 : emptySpace ≠ dot := by decide
        have e2 : emptySpace ≠ powerPellet := by decide
        have e3 : powerPellet ≠ dot := by decide
        simp only [e1, e2, e3, if_true, if_false]
        have f1 := frightenedCount_frightenAll m.ghosts
        have f2 := frightenedCount_nonneg m.ghosts
        rw [hI.2.2.2.1] at f1
        push_cast at f1
        omega
      · intro _
        show (0 : Int) < 20
        decide
      · show (0 : Int) ≤ 20
        decide
      · show (20 : Int) ≤ 20
        decide
      · intro g hg
        have hg1 : g ∈ frightenAll m.ghosts := hg
        simp only [frightenAll, List.mem_map] at hg1
        obtain ⟨g0, _, rfl⟩ := hg1
        exact ⟨show (0 : Int) ≤ 20 by decide, show (20 : Int) ≤ 20 by decide⟩)
  rw [movePacman_some_unique h h2]
  exact hP

theorem core_checkWin (m : Model) (hB : CoreBounds m) (hplay : m.gameState ≠ lost) :
    CoreBounds (checkWin m) := by
  unfold checkWin
  split_ifs
  · obtain ⟨b1, b2, b3, b4, b5, b6, b7, b8, b9⟩ := hB
    exact ⟨b1, b2, b3, fun _ => b4 hplay, b5, b6, b7, b8, b9⟩
  · exact hB

theorem core_updatePowerTimer (m : Model) (hB : CoreBounds m) :
    CoreBounds (updatePowerTimer m) := by
  obtain ⟨b1, b2, b3, b4, b5, b6, b7, b8, b9⟩ := hB
  unfold updatePowerTimer
  split_ifs with hp ht
  · have := b5 hp
    refine ⟨b1, b2, b3, b4, by simp, ?_, ?_, b8, b9⟩
    · show 0 ≤ m.powerTimer - 1
      omega
    · show m.powerTimer - 1 ≤ 20
      omega
  · have := b5 hp
    refine ⟨b1, b2, b3, b4, ?_, ?_, ?_, b8, b9⟩
    · intro _
      show 0 < m.powerTimer - 1
      omega
    · show 0 ≤ m.powerTimer - 1
      omega
    · show m.powerTimer - 1 ≤ 20
      omega
  · exact ⟨b1, b2, b3, b4, b5, b6, b7, b8, b9⟩


theorem ghostStep_some_unique {i : Nat} {m m1 m2 : Model} {r r1 r2 : Rand}
    (h1 : ghostStep i m r = some (m1, r1)) (h2 : ghostStep i m r = some (m2, r2)) : m1 = m2 := by
  rw [h1] at h2
  simp only [Option.some.injEq, Prod.mk.injEq] at h2
  exact h2.1

theorem ghostStep_index {i : Nat} {m m1 : Model} {r r1 : Rand}
    (h : ghostStep i m r = some (m1, r1)) : i < m.ghosts.length := by
  unfold ghostStep at h
  cases hm : ghostMoved i m r with
  | none => simp [hm] at h
  | some p => exact @ghostMoved_index i m r p.2 p.1 hm

theorem inv_of_ghostStep {i : Nat} {m m1 : Model} {r r1 : Rand} (hI : Inv m)
    (h : ghostStep i m r = some (m1, r1)) : Inv m1 := by
  have hi := ghostStep_index h
  rw [hI.2.2.2.1] at hi
  obtain ⟨m2, r2, h2, hI2⟩ := inv_ghostStep i m r hi hI
  rw [ghostStep_some_unique h h2]
  exact hI2

theorem core_ghostStep {i : Nat} {m m1 : Model} {r r1 : Rand} (hI : Inv m) (hB : CoreBounds m)
    (h : ghostStep i m r = some (m1, r1)) : CoreBounds m1 := by
  have hi := ghostStep_index h
  have hg0 : m.ghosts[i]? = some m.ghosts[i] := List.getElem?_eq_getElem hi
  have hmem : m.ghosts[i] ∈ m.ghosts := List.getElem_mem hi
  obtain ⟨b1, b2, b3, b4, b5, b6, b7, b8, b9⟩ := hB
  obtain ⟨m2, r2, h2, hP⟩ := ghostStep_elim m hI.1 i _ hg0 r CoreBounds (by
    intro g hf1 hf2 _
    obtain ⟨d1, d2, d3⟩ := ghostDecay_bounds m.ghosts[i] (hI.2.2.2.2.2 _ hmem) (b8 _ hmem)
    rw [← hf1] at d1
    rw [← hf2] at d2 d3
    have hcnt := frightenedCount_set m.ghosts i m.ghosts[i] g hg0
    have htim : ∀ g1 : Ghost, 0 ≤ g1.frightenedTimer ∧ g1.frightenedTimer ≤ 20 →
        ∀ g2 ∈ m.ghosts.set i g1, 0 ≤ g2.frightenedTimer ∧ g2.frightenedTimer ≤ 20 := by
      intro g1 h1 g2 hg2
      rcases List.mem_or_eq_of_mem_set hg2 with h | h
      · exact b8 g2 h
      · rw [h]; exact h1
    have hle : frightenedCount (m.ghosts.set i g) ≤ frightenedCount m.ghosts := by
      rw [hcnt]
      by_cases hgf : g.frightened = true
      · simp [hgf, d1 hgf]
      · simp only [hgf, Bool.false_eq_true, if_false]
        split_ifs <;> omega
    unfold ghostCollide
    split_ifs with hc hfr hlv
    · have hcnt2 := frightenedCount_set m.ghosts i m.ghosts[i]
        (Ghost.mk (14 + ((i % 2 : Nat) : Int)) (10 + ((i / 2 : Nat) : Int)) g.direction false
          g.frightenedTimer) hg0
      simp only [d1 hfr, if_true, Bool.false_eq_true, if_false] at hcnt2
      refine ⟨?_, ?_, b3, b4, b5, b6, b7, ?_, b9⟩
      · show 0 ≤ m.score + 200
        omega
      · show m.score + 200 + 10 * countDots m.board + 850 * countPellets m.board +
          200 * frightenedCount ((m.ghosts.set i g).set i _) ≤ 3180
        rw [List.set_set, hcnt2]
        omega
      · intro g2 hg2
        have hg3 : g2 ∈ (m.ghosts.set i g).set i _ := hg2
        rw [List.set_set] at hg3
        exact htim (Ghost.mk (14 + ((i % 2 : Nat) : Int)) (10 + ((i / 2 : Nat) : Int))
          g.direction false g.frightenedTimer) ⟨d2, d3⟩ g2 hg3
    · refine ⟨b1, ?_, ?_, ?_, b5, b6, b7, htim g ⟨d2, d3⟩, b9⟩
      · show m.score + 10 * countDots m.board + 850 * countPellets m.board +
          200 * frightenedCount (m.ghosts.set i g) ≤ 3180
        omega
      · show m.lives - 1 ≤ 3
        omega
      · intro hne
        exact absurd rfl hne
    · refine ⟨b1, ?_, ?_, ?_, b5, b6, b7, htim g ⟨d2, d3⟩, b9⟩
      · show m.score + 10 * countDots m.board + 850 * countPellets m.board +
          200 * frightenedCount (m.ghosts.set i g) ≤ 3180
        omega
      · show m.lives - 1 ≤ 3
        omega
      · intro _
        show 1 ≤ m.lives - 1
        have : ¬ (m.lives - 1 ≤ 0) := hlv
        omega
    · refine ⟨b1, ?_, b3, b4, b5, b6, b7, htim g ⟨d2, d3⟩, b9⟩
      show m.score + 10 * countDots m.board + 850 * countPellets m.board +
          200 * frightenedCount (m.ghosts.set i g) ≤ 3180
      omega)
  rw [ghostStep_some_unique h h2]
  exact hP


/-- A property kept by every body of the ghost loop is kept by the loop. -/
theorem ghostLoop_preserves (P : Model → Prop)
    (hstep : ∀ i m r m1 r1, P m → ghostStep i m r = some (m1, r1) → P m1) :
    ∀ (is : List Nat) (m : Model) (r : Rand) (m1 : Model) (r1 : Rand),
      P m → ghostLoop is m r = some (m1, r1) → P m1 := by
  intro is
  induction is with
  | nil =>
    intro m r m1 r1 hP h
    simp only [ghostLoop, Option.some.injEq, Prod.mk.injEq] at h
    rw [← h.1]
    exact hP
  | cons i rest ih =>
    intro m r m1 r1 hP h
    simp only [ghostLoop] at h
    cases hs : ghostStep i m r with
    | none => simp [hs] at h
    | some p =>
      simp only [hs] at h
      exact ih p.1 p.2 m1 r1 (hstep i m r p.1 p.2 hP hs) h

theorem ghostCollide_lives (i : Nat) (g : Ghost) (m : Model) :
    m.lives - 1 ≤ (ghostCollide i g m).lives := by
  unfold ghostCollide
  split_ifs
  · show m.lives - 1 ≤ m.lives
    omega
  · exact le_refl _
  · exact le_refl _
  · show m.lives - 1 ≤ m.lives
    omega

theorem ghostStep_lives {i : Nat} {m m1 : Model} {r r1 : Rand}
    (h : ghostStep i m r = some (m1, r1)) : m.lives - 1 ≤ m1.lives := by
  unfold ghostStep at h
  cases hm : ghostMoved i m r with
  | none => simp [hm] at h
  | some p =>
    simp only [hm, Option.some.injEq, Prod.mk.injEq] at h
    rw [← h.1]
    exact ghostCollide_lives i p.1 { m with ghosts := m.ghosts.set i p.1 }

theorem ghostLoop_lives (is : List Nat) : ∀ {m m1 : Model} {r r1 : Rand},
    ghostLoop is m r = some (m1, r1) → m.lives - (is.length : Int) ≤ m1.lives := by
  induction is with
  | nil =>
    intro m m1 r r1 h
    simp only [ghostLoop, Option.some.injEq, Prod.mk.injEq] at h
    rw [← h.1]
    simp
  | cons i rest ih =>
    intro m m1 r r1 h
    simp only [ghostLoop] at h
    cases hs : ghostStep i m r with
    | none => simp [hs] at h
    | some p =>
      simp only [hs] at h
      have h1 := ghostStep_lives hs
      have h2 := ih h
      rw [List.length_cons]
      push_cast
      omega

theorem movePacman_fields (m m1 : Model) (hwf : WellFormed m) (h : movePacman m = some m1) :
    m1.gameState = m.gameState ∧ m1.lives = m.lives ∧ m1.level = m.level := by
  obtain ⟨m2, h2, hP⟩ := movePacman_elim m hwf
    (fun m1 => m1.gameState = m.gameState ∧ m1.lives = m.lives ∧ m1.level = m.level)
    (fun _ => ⟨rfl, rfl, rfl⟩) (fun _ _ _ _ _ => ⟨rfl, rfl, rfl⟩)
    (fun _ _ _ _ => ⟨rfl, rfl, rfl⟩) (fun _ _ _ _ => ⟨rfl, rfl, rfl⟩)
  rw [movePacman_some_unique h h2]
  exact hP

theorem checkWin_lives (m : Model) : (checkWin m).lives = m.lives ∧
    (checkWin m).ghosts = m.ghosts := by
  unfold checkWin
  split_ifs <;> exact ⟨rfl, rfl⟩

/-- A tick keeps the invariant and the bounds. -/
theorem bounds_tick (m m1 : Model) (r r1 : Rand) (hI : Inv m) (hB : Bounds m)
    (h : tick m r = some (m1, r1)) : Inv m1 ∧ Bounds m1 := by
  by_cases hplay : m.gameState = playing
  · obtain ⟨ma, mb, rb, ha, _, hb, _, ht⟩ := tick_playing m r hI.1 hplay
    rw [ht] at h
    simp only [Option.some.injEq, Prod.mk.injEq] at h
    rw [← h.1]
    obtain ⟨ma1, ha1, hIa⟩ := inv_movePacman m hI
    rw [movePacman_some_unique ha1 ha] at hIa
    have hBa := core_movePacman m ma hI hB.1 ha
    obtain ⟨f1, f2, _⟩ := movePacman_fields m ma hI.1 ha
    have hne : ma.gameState ≠ lost := by rw [f1, hplay]; decide
    have hlv : 1 ≤ m.lives := hB.1.2.2.2.1 (by rw [hplay]; decide)
    have hIc := inv_checkWin ma hIa
    have hBc := core_checkWin ma hBa hne
    have hloop := ghostLoop_preserves (fun x => Inv x ∧ CoreBounds x)
      (fun i x rx x1 rx1 hx hs => ⟨inv_of_ghostStep hx.1 hs, core_ghostStep hx.1 hx.2 hs⟩)
      _ _ _ _ _ ⟨hIc, hBc⟩ hb
    have hlives := ghostLoop_lives _ hb
    rw [List.length_range, (checkWin_lives ma).1, (checkWin_lives ma).2, hIa.2.2.2.1, f2]
      at hlives
    push_cast at hlives
    refine ⟨inv_updatePowerTimer mb hloop.1, core_updatePowerTimer mb hloop.2, ?_⟩
    rw [(updatePowerTimer_fields mb).2.1]
    omega
  · rw [tick_not_playing m r hplay] at h
    simp only [Option.some.injEq, Prod.mk.injEq] at h
    rw [← h.1]
    exact ⟨hI, hB⟩

/-- Every reachable session satisfies the invariant and the bounds. -/
theorem bounds_reachable (m : Model) (h : Reachable m) : Inv m ∧ Bounds m := by
  apply reachable_induction (fun x => Inv x ∧ Bounds x) _ _ _ m h
  · exact ⟨inv_initialModel, core_initialModel, by decide⟩
  · intro x d gs hx hgs
    obtain ⟨hI, ⟨b1, b2, b3, b4, b5, b6, b7, b8, b9⟩, hl⟩ := hx
    refine ⟨hI, ⟨b1, b2, b3, ?_, b5, b6, b7, b8, b9⟩, hl⟩
    intro _
    apply b4
    rcases hgs with e | ⟨e, _⟩ | ⟨e, _⟩
    · rw [← e]; assumption
    · rw [e]; decide
    · rw [e]; decide
  · intro x r x1 r1 hx ht
    exact bounds_tick x x1 r r1 hx.1 hx.2 ht

/-- On every session reachable from `initialModel()` the integer fields lie in
small ranges, far from the bounds of a Go `int`: no step of `Update` overflows
there. -/
theorem reachable_counters_bounded (m : Model) (h : Reachable m) :
    0 ≤ m.score ∧ m.score ≤ 3180 ∧ -3 ≤ m.lives ∧ m.lives ≤ 3 ∧
      0 ≤ m.dotCount ∧ m.dotCount ≤ 318 ∧ 0 ≤ m.powerTimer ∧ m.powerTimer ≤ 20 ∧
      m.level = 1 ∧ m.width = 30 ∧ m.height = 20 ∧ InRange m.pacmanX m.pacmanY ∧
      ∀ g ∈ m.ghosts, InRange g.x g.y ∧ 0 ≤ g.frightenedTimer ∧ g.frightenedTimer ≤ 20 := by
  obtain ⟨⟨hwf, hd, hp, _, hg, _⟩, ⟨b1, b2, b3, _, _, b6, b7, b8, b9⟩, hl⟩ :=
    bounds_reachable m h
  have n1 := countDots_nonneg m.board
  have n2 := countPellets_nonneg m.board
  have n3 := frightenedCount_nonneg m.ghosts
  refine ⟨b1, by omega, hl, b3, by omega, by omega, b6, b7, b9, hwf.1, hwf.2.1, hp, ?_⟩
  intro g hgm
  exact ⟨hg g hgm, (b8 g hgm).1, (b8 g hgm).2⟩

/-! ### C11 - C12: ticks outside `playing`, and key input -/

/-- C11: for every session whose `gameState` is `paused`, `won` or `lost`, a
timer tick returns the session as it is (every field unchanged), whatever the
state of the random source, which is left untouched too. -/
theorem tick_outside_playing (m : Model) (r : Rand)
    (h : m.gameState = paused ∨ m.gameState = won ∨ m.gameState = lost) :
    Update m Msg.tick r = some (m, r) := by
  have hne : m.gameState ≠ playing := by
    rcases h with h | h | h <;> rw [h] <;> decide
  exact tick_not_playing m r hne

set_option maxRecDepth 100000 in
/-- Witness for C11 on a paused session. -/
theorem tick_outside_playing_witness :
    Update pausedSession Msg.tick idleDraws = some (pausedSession, idleDraws) :=
  tick_outside_playing pausedSession idleDraws (Or.inl (by decide))

theorem keyPress_pause (m : Model) :
    keyPress m "p" =
      if m.gameState = paused then { m with gameState := playing }
      else if m.gameState = playing then { m with gameState := paused }
      else m := by
  unfold keyPress
  simp

theorem keyPress_pause_playing (m : Model) (h : m.gameState = playing) :
    keyPress m "p" = { m with gameState := paused } := by
  have hpp : playing ≠ paused := by decide
  rw [keyPress_pause, h]
  simp [hpp]

theorem keyPress_pause_paused (m : Model) (h : m.gameState = paused) :
    keyPress m "p" = { m with gameState := playing } := by
  rw [keyPress_pause, h]
  simp

/-- C12: under every key other than the restart key `r` (the quit keys
included), the key `p` maps `playing` to `paused` and `paused` to `playing` and
leaves `won` and `lost` as they are, and every other key leaves the phase
unchanged; a key changes nothing but `pacmanDirection` (never under `p`) or
`gameState` (only under `p`).  Hence a session that is `won` or `lost` stays so
under every tick and every such key, and pressing `p` twice gives back a
`playing` or `paused` session exactly. -/
theorem key_input_effects (m : Model) (s : String) (r : Rand) (hs : s ≠ "r") :
    (s = "p" → m.gameState = playing → keyPress m s = { m with gameState := paused }) ∧
      (s = "p" → m.gameState = paused → keyPress m s = { m with gameState := playing }) ∧
      (s = "p" → m.gameState ≠ playing → m.gameState ≠ paused → keyPress m s = m) ∧
      (s ≠ "p" → (keyPress m s).gameState = m.gameState) ∧
      (s = "p" → (keyPress m s).pacmanDirection = m.pacmanDirection) ∧
      keyPress m s = { m with pacmanDirection := (keyPress m s).pacmanDirection,
                              gameState := (keyPress m s).gameState } ∧
      (m.gameState = won ∨ m.gameState = lost →
        (keyPress m s).gameState = m.gameState ∧ Update m Msg.tick r = some (m, r)) ∧
      (m.gameState = playing ∨ m.gameState = paused →
        keyPress (keyPress m "p") "p" = m) := by
  have hpp : paused ≠ playing := by decide
  refine ⟨?_, ?_, ?_, ?_, ?_, ?_, ?_, ?_⟩
  · intro h1 h2
    rw [h1, keyPress_pause, h2]
    simp [hpp.symm]
  · intro h1 h2
    rw [h1, keyPress_pause, h2]
    simp
  · intro h1 h2 h3
    rw [h1, keyPress_pause]
    simp [h2, h3]
  · intro h1
    unfold keyPress
    split_ifs <;> rfl
  · intro h1
    rw [h1, keyPress_pause]
    split_ifs <;> rfl
  · unfold keyPress
    split_ifs <;> rfl
  · intro h
    constructor
    · have h1 : m.gameState ≠ paused := by rcases h with h | h <;> rw [h] <;> decide
      have h2 : m.gameState ≠ playing := by rcases h with h | h <;> rw [h] <;> decide
      unfold keyPress
      split_ifs <;> rfl
    · exact tick_outside_playing m r (Or.inr h)
  · intro h
    rcases h with h | h
    · rw [keyPress_pause_playing m h, keyPress_pause_paused _ rfl]
      cases m
      simp only at h
      simp [h]
    · rw [keyPress_pause_paused m h, keyPress_pause_playing _ rfl]
      cases m
      simp only at h
      simp [h]

set_option maxRecDepth 100000 in
/-- Witness for C12: the key `p` on the playing session reached by
`doubleCatchTrace`. -/
theorem key_input_effects_witness :
    ("p" = "p" → doubleCatchSession.gameState = playing →
        keyPress doubleCatchSession "p" = { doubleCatchSession with gameState := paused }) ∧
      ("p" = "p" → doubleCatchSession.gameState = paused →
        keyPress doubleCatchSession "p" = { doubleCatchSession with gameState := playing }) ∧
      ("p" = "p" → doubleCatchSession.gameState ≠ playing →
        doubleCatchSession.gameState ≠ paused →
        keyPress doubleCatchSession "p" = doubleCatchSession) ∧
      ("p" ≠ "p" → (keyPress doubleCatchSession "p").gameState = doubleCatchSession.gameState) ∧
      ("p" = "p" →
        (keyPress doubleCatchSession "p").pacmanDirection =
          doubleCatchSession.pacmanDirection) ∧
      keyPress doubleCatchSession "p" =
        { doubleCatchSession with
          pacmanDirection := (keyPress doubleCatchSession "p").pacmanDirection,
          gameState := (keyPress doubleCatchSession "p").gameState } ∧
      (doubleCatchSession.gameState = won ∨ doubleCatchSession.gameState = lost →
        (keyPress doubleCatchSession "p").gameState = doubleCatchSession.gameState ∧
          Update doubleCatchSession Msg.tick idleDraws = some (doubleCatchSession, idleDraws)) ∧
      (doubleCatchSession.gameState = playing ∨ doubleCatchSession.gameState = paused →
        keyPress (keyPress doubleCatchSession "p") "p" = doubleCatchSession) :=
  key_input_effects doubleCatchSession "p" idleDraws (by decide)

/-! ### C20: the ghosts and the random source do not touch the pickups -/

theorem movePacman_board (m n m1 n1 : Model) (hm : WellFormed m) (hn : WellFormed n)
    (hb : n.board = m.board) (hd : n.dotCount = m.dotCount) (hx : n.pacmanX = m.pacmanX)
    (hy : n.pacmanY = m.pacmanY) (hf : n.pacmanDirection = m.pacmanDirection)
    (h1 : movePacman m = some m1) (h2 : movePacman n = some n1) :
    n1.board = m1.board ∧ n1.dotCount = m1.dotCount := by
  have hc : pacmanCandidate n = pacmanCandidate m := by
    simp only [pacmanCandidate, candidate, hx, hy, hf, hm.1, hm.2.1, hn.1, hn.2.1]
  obtain ⟨n2, e2, hP⟩ := movePacman_elim n hn
    (fun x => ∀ m1, movePacman m = some m1 → x.board = m1.board ∧ x.dotCount = m1.dotCount)
    (by
      intro hw m1 h1
      rw [hc, hb] at hw
      rw [movePacman_wall m (wellFormed_inBounds hm _ _ _) hw] at h1
      rw [← Option.some.inj h1]
      exact ⟨hb, hd⟩)
    (by
      intro c hcell c1 c2 c3 m1 h1
      rw [hc, hb] at hcell
      rw [movePacman_plain m c (wellFormed_inBounds hm _ _ _) hcell c1 c2 c3] at h1
      rw [← Option.some.inj h1]
      exact ⟨hb, hd⟩)
    (by
      intro row hcell hrow hcl m1 h1
      rw [hc, hb] at hcell hrow
      obtain ⟨row1, hr1, _, hr3⟩ := movePacman_dot m (wellFormed_inBounds hm _ _ _) hcell
      rw [hrow] at hr1
      rw [← Option.some.inj hr1] at hr3
      rw [hr3] at h1
      rw [← Option.some.inj h1]
      refine ⟨?_, ?_⟩
      · show n.board.set _ _ = m.board.set _ _
        rw [hc, hb]
      · show n.dotCount - 1 = m.dotCount - 1
        rw [hd])
    (by
      intro row hcell hrow hcl m1 h1
      rw [hc, hb] at hcell hrow
      obtain ⟨row1, hr1, _, hr3⟩ := movePacman_pellet m (wellFormed_inBounds hm _ _ _) hcell
      rw [hrow] at hr1
      rw [← Option.some.inj hr1] at hr3
      rw [hr3] at h1
      rw [← Option.some.inj h1]
      refine ⟨?_, hd⟩
      show n.board.set _ _ = m.board.set _ _
      rw [hc, hb])
  rw [movePacman_some_unique h2 e2]
  exact hP m1 h1

/-- C20: two well-formed playing sessions that agree on board, `dotCount`,
player position and player facing, whatever their ghosts, lives, score and
power mode and whatever the random draws each meets, both produce a session on
a tick, with the same board and the same `dotCount`. -/
theorem pickups_independent_of_ghosts (m n : Model) (r s : Rand)
    (hm : WellFormed m) (hn : WellFormed n)
    (hpm : m.gameState = playing) (hpn : n.gameState = playing)
    (hb : n.board = m.board) (hd : n.dotCount = m.dotCount) (hx : n.pacmanX = m.pacmanX)
    (hy : n.pacmanY = m.pacmanY) (hf : n.pacmanDirection = m.pacmanDirection) :
    ∃ m1 r1 n1 s1, tick m r = some (m1, r1) ∧ tick n s = some (n1, s1) ∧
      n1.board = m1.board ∧ n1.dotCount = m1.dotCount := by
  obtain ⟨ma, mb, rb, h1, _, _, hfm, htm⟩ := tick_playing m r hm hpm
  obtain ⟨na, nb, sb, h2, _, _, hfn, htn⟩ := tick_playing n s hn hpn
  obtain ⟨e1, e2⟩ := movePacman_board m n ma na hm hn hb hd hx hy hf h1 h2
  refine ⟨_, rb, _, sb, htm, htn, ?_, ?_⟩
  · rw [(updatePowerTimer_fields nb).2.2.2.1, (updatePowerTimer_fields mb).2.2.2.1, hfn.1,
      hfm.1]
    unfold checkWin
    split_ifs <;> exact e1
  · rw [updatePowerTimer_dotCount, updatePowerTimer_dotCount, hfn.2.1, hfm.2.1,
      checkWin_dotCount, checkWin_dotCount]
    exact e2

set_option maxRecDepth 100000 in
/-- Witness for C20: `initialModel()` and `lastDotSession` with the board and
`dotCount` of `initialModel()`, which differ in ghosts, lives and power mode,
under different draws. -/
theorem pickups_independent_of_ghosts_witness :
    ∃ m1 r1 n1 s1, tick initialModel idleDraws = some (m1, r1) ∧
      tick { lastDotSession with board := initialModel.board,
                                 dotCount := initialModel.dotCount } lastDotDraws =
        some (n1, s1) ∧
      n1.board = m1.board ∧ n1.dotCount = m1.dotCount :=
  pickups_independent_of_ghosts initialModel
    { lastDotSession with board := initialModel.board, dotCount := initialModel.dotCount }
    idleDraws lastDotDraws (by decide) (by decide) (by decide) (by decide) rfl rfl rfl rfl rfl

/-! ### The stages of a tick on a reachable session -/

/-- The stages of a tick of a playing session that satisfies the invariant and
the bounds, each with the invariant and the bounds it satisfies. -/
theorem tick_stages (m m1 : Model) (r r1 : Rand) (hI : Inv m) (hB : Bounds m)
    (hplay : m.gameState = playing) (ht : tick m r = some (m1, r1)) :
    ∃ ma mb, movePacman m = some ma ∧ Inv ma ∧ CoreBounds ma ∧
      moveGhosts (checkWin ma) r = some (mb, r1) ∧ Inv mb ∧ CoreBounds mb ∧
      SameFrame (checkWin ma) mb ∧ m1 = updatePowerTimer mb := by
  obtain ⟨ma, mb, rb, ha, _, hb, hf, ht1⟩ := tick_playing m r hI.1 hplay
  rw [ht1] at ht
  simp only [Option.some.injEq, Prod.mk.injEq] at ht
  obtain ⟨ma1, ha1, hIa⟩ := inv_movePacman m hI
  rw [movePacman_some_unique ha1 ha] at hIa
  have hBa := core_movePacman m ma hI hB.1 ha
  obtain ⟨f1, _, _⟩ := movePacman_fields m ma hI.1 ha
  have hne : ma.gameState ≠ lost := by rw [f1, hplay]; decide
  have hloop := ghostLoop_preserves (fun x => Inv x ∧ CoreBounds x)
    (fun i x rx x1 rx1 hx hs => ⟨inv_of_ghostStep hx.1 hs, core_ghostStep hx.1 hx.2 hs⟩)
    _ _ _ _ _ ⟨inv_checkWin ma hIa, core_checkWin ma hBa hne⟩ hb
  rw [ht.2] at hb
  exact ⟨ma, mb, ha, hIa, hBa, hb, hloop.1, hloop.2, hf, ht.1.symm⟩

/-- Induction over the reachable sessions, with the invariant and the bounds at
hand and the tick of a session that is not playing already discharged. -/
theorem reachable_induction_inv (X : Model → Prop) (h0 : X initialModel)
    (hkey : ∀ m d gs, Inv m → Bounds m → X m →
      (gs = m.gameState ∨ (m.gameState = paused ∧ gs = playing) ∨
        (m.gameState = playing ∧ gs = paused)) →
      X { m with pacmanDirection := d, gameState := gs })
    (htick : ∀ m r m1 r1, Inv m → Bounds m → X m → m.gameState = playing →
      tick m r = some (m1, r1) → X m1) :
    ∀ m, Reachable m → X m := by
  intro m hm
  have key : Inv m ∧ Bounds m ∧ X m := by
    apply reachable_induction (fun x => Inv x ∧ Bounds x ∧ X x) _ _ _ m hm
    · exact ⟨(bounds_reachable _ Reachable.init).1, (bounds_reachable _ Reachable.init).2, h0⟩
    · intro x d gs hx hgs
      have hr : Inv x ∧ Bounds x := ⟨hx.1, hx.2.1⟩
      obtain ⟨hI, ⟨b1, b2, b3, b4, b5, b6, b7, b8, b9⟩, hl⟩ := hr
      refine ⟨hI, ⟨⟨b1, b2, b3, ?_, b5, b6, b7, b8, b9⟩, hl⟩, hkey x d gs hx.1 hx.2.1 hx.2.2 hgs⟩
      intro _
      apply b4
      rcases hgs with e | ⟨e, _⟩ | ⟨e, _⟩
      · rw [← e]; assumption
      · rw [e]; decide
      · rw [e]; decide
    · intro x r x1 r1 hx ht
      have hb := bounds_tick x x1 r r1 hx.1 hx.2.1 ht
      refine ⟨hb.1, hb.2, ?_⟩
      by_cases hplay : x.gameState = playing
      · exact htick x r x1 r1 hx.1 hx.2.1 hx.2.2 hplay ht
      · rw [tick_not_playing x r hplay] at ht
        simp only [Option.some.injEq, Prod.mk.injEq] at ht
        rw [← ht.1]
        exact hx.2.2
  exact key.2.2

/-- What the player-movement part does to power mode and ghosts: nothing, unless
the candidate cell holds a power pellet. -/
theorem movePacman_power (m ma : Model) (hwf : WellFormed m) (h : movePacman m = some ma) :
    (cellAt m.board (pacmanCandidate m).1 (pacmanCandidate m).2 ≠ some powerPellet ∧
        ma.powerMode = m.powerMode ∧ ma.powerTimer = m.powerTimer ∧ ma.ghosts = m.ghosts) ∨
      (cellAt m.board (pacmanCandidate m).1 (pacmanCandidate m).2 = some powerPellet ∧
        ma.powerMode = true ∧ ma.powerTimer = 20 ∧ ma.ghosts = frightenAll m.ghosts) := by
  obtain ⟨m2, h2, hP⟩ := movePacman_elim m hwf
    (fun ma =>
      (cellAt m.board (pacmanCandidate m).1 (pacmanCandidate m).2 ≠ some powerPellet ∧
        ma.powerMode = m.powerMode ∧ ma.powerTimer = m.powerTimer ∧ ma.ghosts = m.ghosts) ∨
      (cellAt m.board (pacmanCandidate m).1 (pacmanCandidate m).2 = some powerPellet ∧
        ma.powerMode = true ∧ ma.powerTimer = 20 ∧ ma.ghosts = frightenAll m.ghosts))
    (by
      intro hc
      left
      refine ⟨?_, rfl, rfl, rfl⟩
      rw [hc]
      decide)
    (by
      intro c hc _ _ h3
      left
      refine ⟨?_, rfl, rfl, rfl⟩
      rw [hc]
      intro e
      exact h3 (Option.some.inj e))
    (by
      intro row hc _ _
      left
      refine ⟨?_, rfl, rfl, rfl⟩
      rw [hc]
      decide)
    (by
      intro row hc _ _
      right
      exact ⟨hc, rfl, rfl, rfl⟩)
  rw [movePacman_some_unique h h2]
  exact hP

theorem checkWin_fields (m : Model) :
    (checkWin m).powerMode = m.powerMode ∧ (checkWin m).powerTimer = m.powerTimer ∧
      (checkWin m).ghosts = m.ghosts ∧ (checkWin m).board = m.board ∧
      (checkWin m).pacmanX = m.pacmanX ∧ (checkWin m).pacmanY = m.pacmanY ∧
      (checkWin m).score = m.score ∧ (checkWin m).lives = m.lives := by
  unfold checkWin
  split_ifs <;> exact ⟨rfl, rfl, rfl, rfl, rfl, rfl, rfl, rfl⟩

theorem updatePowerTimer_power (m : Model) (h : m.powerMode = true → 0 < m.powerTimer) :
    (m.powerMode = true → (updatePowerTimer m).powerTimer = m.powerTimer - 1 ∧
        ((updatePowerTimer m).powerMode = false ↔ (updatePowerTimer m).powerTimer = 0) ∧
        ((updatePowerTimer m).powerMode = true ↔ 0 < (updatePowerTimer m).powerTimer)) ∧
      (m.powerMode = false → updatePowerTimer m = m) := by
  unfold updatePowerTimer
  constructor
  · intro hp
    have := h hp
    simp only [hp, if_true]
    split_ifs with ht
    · refine ⟨rfl, ?_, ?_⟩
      · constructor
        · intro _
          show m.powerTimer - 1 = 0
          omega
        · intro _
          rfl
      · constructor
        · intro e
          simp at e
        · intro e
          have : 0 < m.powerTimer - 1 := e
          omega
    · refine ⟨rfl, ?_, ?_⟩
      · constructor
        · intro e
          simp [hp] at e
        · intro e
          have : m.powerTimer - 1 = 0 := e
          omega
      · constructor
        · intro _
          show 0 < m.powerTimer - 1
          omega
        · intro _
          rfl
  · intro hp
    simp [hp]

/-! ### C13: the power-mode timer -/

theorem power_off_tick (m m1 : Model) (r r1 : Rand) (hI : Inv m) (hB : Bounds m)
    (hX : m.powerMode = false → m.powerTimer = 0) (hplay : m.gameState = playing)
    (ht : tick m r = some (m1, r1)) : m1.powerMode = false → m1.powerTimer = 0 := by
  obtain ⟨ma, mb, ha, _, _, _, _, hBb, hf, hm1⟩ := tick_stages m m1 r r1 hI hB hplay ht
  obtain ⟨c1, c2, _⟩ := checkWin_fields ma
  have e1 : mb.powerMode = ma.powerMode := hf.2.2.2.2.1.trans c1
  have e2 : mb.powerTimer = ma.powerTimer := hf.2.2.2.2.2.1.trans c2
  obtain ⟨u1, u2⟩ := updatePowerTimer_power mb hBb.2.2.2.2.1
  rw [hm1]
  cases hp : mb.powerMode with
  | true =>
    obtain ⟨_, u3, _⟩ := u1 hp
    exact u3.1
  | false =>
    rw [u2 hp]
    intro _
    rcases movePacman_power m ma hI.1 ha with ⟨_, p1, p2, _⟩ | ⟨_, p1, _, _⟩
    · rw [e2, p2]
      apply hX
      rw [← p1, ← e1]
      exact hp
    · rw [e1, p1] at hp
      exact absurd hp (by decide)

theorem power_off_reachable (m : Model) (h : Reachable m) :
    m.powerMode = false → m.powerTimer = 0 := by
  apply reachable_induction_inv (fun x => x.powerMode = false → x.powerTimer = 0) _ _ _ m h
  · intro _
    decide
  · intro x d gs _ _ hx _
    exact hx
  · intro x r x1 r1 hI hB hx hplay ht
    exact power_off_tick x x1 r r1 hI hB hx hplay ht

/-- C13: in every session reachable from `initialModel()` by ticks (whatever the
random draws) and key inputs, `powerMode` is true exactly when `powerTimer > 0`,
and `powerTimer >= 0`; and a tick of such a session that is playing in power
mode, the player's wrapped candidate cell not holding a power pellet, produces a
session whose `powerTimer` is one less and whose `powerMode` is false exactly
when that timer is 0. -/
theorem power_timer_invariant (m : Model) (r : Rand) (h : Reachable m) :
    (m.powerMode = true ↔ 0 < m.powerTimer) ∧ 0 ≤ m.powerTimer ∧
      (m.gameState = playing → m.powerMode = true →
        cellAt m.board (pacmanCandidate m).1 (pacmanCandidate m).2 ≠ some powerPellet →
        ∃ m1 r1, tick m r = some (m1, r1) ∧ m1.powerTimer = m.powerTimer - 1 ∧
          (m1.powerMode = false ↔ m1.powerTimer = 0)) := by
  obtain ⟨hI, hB⟩ := bounds_reachable m h
  have hoff := power_off_reachable m h
  refine ⟨⟨hB.1.2.2.2.2.1, ?_⟩, hB.1.2.2.2.2.2.1, ?_⟩
  · intro hpos
    cases hp : m.powerMode with
    | true => rfl
    | false =>
      have := hoff hp
      omega
  · intro hplay hpm hcell
    obtain ⟨m1, r1, ht, _⟩ := inv_tick m r hI
    obtain ⟨ma, mb, ha, _, _, _, _, hBb, hf, hm1⟩ := tick_stages m m1 r r1 hI hB hplay ht
    obtain ⟨c1, c2, _⟩ := checkWin_fields ma
    have e1 : mb.powerMode = ma.powerMode := hf.2.2.2.2.1.trans c1
    have e2 : mb.powerTimer = ma.powerTimer := hf.2.2.2.2.2.1.trans c2
    rcases movePacman_power m ma hI.1 ha with ⟨_, p1, p2, _⟩ | ⟨hc, _⟩
    · have hpb : mb.powerMode = true := by rw [e1, p1, hpm]
      obtain ⟨u1, u2, _⟩ := (updatePowerTimer_power mb hBb.2.2.2.2.1).1 hpb
      refine ⟨m1, r1, ht, ?_, ?_⟩
      · rw [hm1, u1, e2, p2]
      · rw [hm1]
        exact u2
    · exact absurd hc hcell

set_option maxRecDepth 100000 in
theorem afterPellet_run :
    run [(Msg.key "down", drawsOf []), (Msg.tick, idleDraws), (Msg.tick, idleDraws)]
      initialModel = some afterPelletSession := by
  decide

theorem afterPellet_reachable : Reachable afterPelletSession :=
  reachable_run _ initialModel _ Reachable.init afterPellet_run

set_option maxRecDepth 100000 in
/-- Witness for C13 on the session in which the player has just eaten a power
pellet (`powerTimer = 19`). -/
theorem power_timer_invariant_witness :
    (afterPelletSession.powerMode = true ↔ 0 < afterPelletSession.powerTimer) ∧
      0 ≤ afterPelletSession.powerTimer ∧
      (afterPelletSession.gameState = playing → afterPelletSession.powerMode = true →
        cellAt afterPelletSession.board (pacmanCandidate afterPelletSession).1
          (pacmanCandidate afterPelletSession).2 ≠ some powerPellet →
        ∃ m1 r1, tick afterPelletSession idleDraws = some (m1, r1) ∧
          m1.powerTimer = afterPelletSession.powerTimer - 1 ∧
          (m1.powerMode = false ↔ m1.powerTimer = 0)) :=
  power_timer_invariant afterPelletSession idleDraws afterPellet_reachable

/-! ### C14: the score -/

theorem ghostStep_score {i : Nat} {m m1 : Model} {r r1 : Rand}
    (h : ghostStep i m r = some (m1, r1)) :
    m1.score = m.score + 200 * (ghostEaten i m r : Int) ∧ ghostEaten i m r ≤ 1 := by
  unfold ghostStep at h
  unfold ghostEaten
  cases hm : ghostMoved i m r with
  | none => simp [hm] at h
  | some p =>
    simp only [hm, Option.some.injEq, Prod.mk.injEq] at h
    rw [← h.1]
    unfold ghostCollide
    by_cases hc : p.1.x = m.pacmanX ∧ p.1.y = m.pacmanY
    · by_cases hf : p.1.frightened = true
      · have h3 : p.1.x = m.pacmanX ∧ p.1.y = m.pacmanY ∧ p.1.frightened = true :=
          ⟨hc.1, hc.2, hf⟩
        rw [if_pos hc, if_pos hf]
        simp only [h3, and_self, if_true]
        exact ⟨by simp, le_refl _⟩
      · have h3 : ¬(p.1.x = m.pacmanX ∧ p.1.y = m.pacmanY ∧ p.1.frightened = true) :=
          fun e => hf e.2.2
        rw [if_pos hc, if_neg hf]
        simp only [h3, if_false]
        split_ifs <;> exact ⟨by simp, by omega⟩
    · have h3 : ¬(p.1.x = m.pacmanX ∧ p.1.y = m.pacmanY ∧ p.1.frightened = true) :=
        fun e => hc ⟨e.1, e.2.1⟩
      rw [if_neg hc]
      simp only [h3, if_false]
      exact ⟨by simp, by omega⟩

theorem ghostLoop_score (is : List Nat) : ∀ {m m1 : Model} {r r1 : Rand},
    ghostLoop is m r = some (m1, r1) →
      m1.score = m.score + 200 * (eatenCount is m r : Int) ∧ eatenCount is m r ≤ is.length := by
  induction is with
  | nil =>
    intro m m1 r r1 h
    simp only [ghostLoop, Option.some.injEq, Prod.mk.injEq] at h
    rw [← h.1]
    simp [eatenCount]
  | cons i rest ih =>
    intro m m1 r r1 h
    simp only [ghostLoop] at h
    cases hs : ghostStep i m r with
    | none => simp [hs] at h
    | some p =>
      simp only [hs] at h
      obtain ⟨a1, a2⟩ := ghostStep_score hs
      obtain ⟨b1, b2⟩ := ih h
      simp only [eatenCount, hs, List.length_cons]
      refine ⟨?_, by omega⟩
      rw [b1, a1]
      push_cast
      ring

theorem movePacman_score (m ma : Model) (hwf : WellFormed m) (h : movePacman m = some ma) :
    ma.score = m.score + pickupScore m ∧
      (pickupScore m = 0 ∨ pickupScore m = 10 ∨ pickupScore m = 50) := by
  have hwd : wall ≠ dot := by decide
  have hwp : wall ≠ powerPellet := by decide
  have hpd : powerPellet ≠ dot := by decide
  obtain ⟨m2, h2, hP⟩ := movePacman_elim m hwf
    (fun ma => ma.score = m.score + pickupScore m ∧
      (pickupScore m = 0 ∨ pickupScore m = 10 ∨ pickupScore m = 50))
    (by
      intro hc
      unfold pickupScore
      simp [hc, hwd, hwp])
    (by
      intro c hc _ h2 h3
      unfold pickupScore
      simp [hc, h2, h3])
    (by
      intro row hc _ _
      unfold pickupScore
      simp [hc])
    (by
      intro row hc _ _
      unfold pickupScore
      simp [hc, hpd])
  rw [movePacman_some_unique h h2]
  exact hP

theorem keyPress_score (m : Model) (s : String) (hs : s ≠ "r") :
    (keyPress m s).score = m.score := by
  unfold keyPress
  split_ifs <;> rfl

/-- C14: the score is not negative on the reachable sessions and never
decreases: for every well-formed session with its four ghosts, a key other than
restart leaves the score as it is, and a tick produces a session whose score is
the previous one plus `p + 200 * k`, where `p` is 0, 10 or 50 (the pickup in the
player's wrapped candidate cell: nothing, a dot or a power pellet) and `k <= 4`
is the number of frightened ghosts that met the player on that tick; outside
`playing` both are 0. -/
theorem score_never_decreases (m : Model) (r : Rand) (s : String) (hwf : WellFormed m)
    (hfour : m.ghosts.length = 4) (hs : s ≠ "r") :
    (Reachable m → 0 ≤ m.score) ∧ (keyPress m s).score = m.score ∧
      ∃ m1 r1 p, ∃ k : Nat, tick m r = some (m1, r1) ∧ m.score ≤ m1.score ∧
        m1.score = m.score + p + 200 * (k : Int) ∧ (p = 0 ∨ p = 10 ∨ p = 50) ∧ k ≤ 4 ∧
        (m.gameState ≠ playing → p = 0 ∧ k = 0) ∧
        (m.gameState = playing → p = pickupScore m ∧
          ∃ ma, movePacman m = some ma ∧
            k = eatenCount (List.range ma.ghosts.length) (checkWin ma) r) := by
  refine ⟨fun h => (bounds_reachable m h).2.1.1, keyPress_score m s hs, ?_⟩
  by_cases hplay : m.gameState = playing
  · obtain ⟨ma, mb, rb, ha, _, hb, hf, ht⟩ := tick_playing m r hwf hplay
    obtain ⟨s1, s2⟩ := movePacman_score m ma hwf ha
    have hlen : ma.ghosts.length = 4 := by
      rcases movePacman_power m ma hwf ha with ⟨_, _, _, e⟩ | ⟨_, _, _, e⟩
      · rw [e, hfour]
      · rw [e]
        simpa [frightenAll] using hfour
    obtain ⟨l1, l2⟩ := ghostLoop_score _ hb
    obtain ⟨c1, c2, c3, c4, c5, c6, c7, c8⟩ := checkWin_fields ma
    rw [c3, List.length_range] at l2
    have l3 : eatenCount (List.range ma.ghosts.length) (checkWin ma) r ≤ 4 := by omega
    rw [c3, c7, s1] at l1
    have hsc : (updatePowerTimer mb).score =
        m.score + pickupScore m +
          200 * (eatenCount (List.range ma.ghosts.length) (checkWin ma) r : Int) := by
      rw [(updatePowerTimer_fields mb).1, l1]
    refine ⟨updatePowerTimer mb, rb, pickupScore m,
      eatenCount (List.range ma.ghosts.length) (checkWin ma) r, ht, ?_, hsc, s2, l3,
      fun h => absurd hplay h, fun _ => ⟨rfl, ma, ha, rfl⟩⟩
    rw [hsc]
    rcases s2 with e | e | e <;> rw [e] <;> omega
  · exact ⟨m, r, 0, 0, tick_not_playing m r hplay, le_refl _, by simp, Or.inl rfl, by omega,
      fun _ => ⟨rfl, rfl⟩, fun h => absurd h hplay⟩

set_option maxRecDepth 100000 in
/-- Witness for C14 on `lastDotSession`, whose tick under `lastDotDraws` eats a
dot and a frightened ghost. -/
theorem score_never_decreases_witness :
    (Reachable lastDotSession → 0 ≤ lastDotSession.score) ∧
      (keyPress lastDotSession "up").score = lastDotSession.score ∧
      ∃ m1 r1 p, ∃ k : Nat, tick lastDotSession lastDotDraws = some (m1, r1) ∧
        lastDotSession.score ≤ m1.score ∧
        m1.score = lastDotSession.score + p + 200 * (k : Int) ∧
        (p = 0 ∨ p = 10 ∨ p = 50) ∧ k ≤ 4 ∧
        (lastDotSession.gameState ≠ playing → p = 0 ∧ k = 0) ∧
        (lastDotSession.gameState = playing → p = pickupScore lastDotSession ∧
          ∃ ma, movePacman lastDotSession = some ma ∧
            k = eatenCount (List.range ma.ghosts.length) (checkWin ma) lastDotDraws) :=
  score_never_decreases lastDotSession lastDotDraws "up" (by decide) (by decide) (by decide)

/-! ### C15, C17, C18: the cells of the board -/

/-- What a tick does to the board of a well-formed session: nothing, or it
writes `emptySpace` over the dot or power pellet of the player's wrapped
candidate cell. -/
theorem tick_board (m m1 : Model) (r r1 : Rand) (hwf : WellFormed m)
    (ht : tick m r = some (m1, r1)) :
    m1.board = m.board ∨
      ∃ row, 0 ≤ (pacmanCandidate m).1 ∧ 0 ≤ (pacmanCandidate m).2 ∧
        m.board[(pacmanCandidate m).2.toNat]? = some row ∧
        (row[(pacmanCandidate m).1.toNat]? = some dot ∨
          row[(pacmanCandidate m).1.toNat]? = some powerPellet) ∧
        m1.board = m.board.set (pacmanCandidate m).2.toNat
          (row.set (pacmanCandidate m).1.toNat emptySpace) := by
  by_cases hplay : m.gameState = playing
  · obtain ⟨ma, mb, rb, ha, _, _, hf, ht1⟩ := tick_playing m r hwf hplay
    rw [ht1] at ht
    simp only [Option.some.injEq, Prod.mk.injEq] at ht
    have hb : m1.board = ma.board := by
      rw [← ht.1, (updatePowerTimer_fields mb).2.2.2.1, hf.1, (checkWin_fields ma).2.2.2.1]
    rw [hb]
    obtain ⟨m2, h2, hP⟩ := movePacman_elim m hwf
      (fun ma => ma.board = m.board ∨
        ∃ row, 0 ≤ (pacmanCandidate m).1 ∧ 0 ≤ (pacmanCandidate m).2 ∧
          m.board[(pacmanCandidate m).2.toNat]? = some row ∧
          (row[(pacmanCandidate m).1.toNat]? = some dot ∨
            row[(pacmanCandidate m).1.toNat]? = some powerPellet) ∧
          ma.board = m.board.set (pacmanCandidate m).2.toNat
            (row.set (pacmanCandidate m).1.toNat emptySpace))
      (fun _ => Or.inl rfl) (fun _ _ _ _ _ => Or.inl rfl)
      (by
        intro row hc hrow hcell
        obtain ⟨hx, hy, _⟩ := cellAt_eq_some.1 hc
        exact Or.inr ⟨row, hx, hy, hrow, Or.inl hcell, rfl⟩)
      (by
        intro row hc hrow hcell
        obtain ⟨hx, hy, _⟩ := cellAt_eq_some.1 hc
        exact Or.inr ⟨row, hx, hy, hrow, Or.inr hcell, rfl⟩)
    rw [movePacman_some_unique ha h2]
    exact hP
  · rw [tick_not_playing m r hplay] at ht
    simp only [Option.some.injEq, Prod.mk.injEq] at ht
    rw [← ht.1]
    exact Or.inl rfl

theorem cellsOK_set {b : List (List Rune)} (h : CellsOK b) (n k : Nat) (row : List Rune)
    (hrow : b[n]? = some row) : CellsOK (b.set n (row.set k emptySpace)) := by
  intro r hr c hc
  rcases List.mem_or_eq_of_mem_set hr with h1 | h1
  · exact h r h1 c hc
  · rw [h1] at hc
    rcases List.mem_or_eq_of_mem_set hc with h2 | h2
    · exact h row (List.getElem?_mem hrow) c h2
    · left
      rw [h2]
      exact Or.inr (Or.inr (Or.inr rfl))

theorem notWall_set {b : List (List Rune)} {x y : Int} (row : List Rune) (hx : 0 ≤ x)
    (hy : 0 ≤ y) (hrow : b[y.toNat]? = some row) {c0 : Rune} (hc : row[x.toNat]? = some c0)
    (x1 y1 : Int) (h : NotWall b x1 y1) :
    NotWall (b.set y.toNat (row.set x.toNat emptySpace)) x1 y1 := by
  by_cases he : (x1, y1) = (x, y)
  · simp only [Prod.mk.injEq] at he
    rw [he.1, he.2]
    exact ⟨emptySpace, cellAt_set_self emptySpace row hx hy hrow hc, by decide⟩
  · obtain ⟨c, h1, h2⟩ := h
    exact ⟨c, by rw [cellAt_set_other emptySpace row hx hy hrow x1 y1 he]; exact h1, h2⟩

theorem cellsOK_reachable (m : Model) (h : Reachable m) : CellsOK m.board := by
  apply reachable_induction_inv (fun x => CellsOK x.board) _ _ _ m h
  · decide
  · intro x d gs _ _ hx _
    exact hx
  · intro x r x1 r1 hI _ hx _ ht
    rcases tick_board x x1 r r1 hI.1 ht with e | ⟨row, _, _, hrow, _, e⟩
    · rw [e]; exact hx
    · rw [e]; exact cellsOK_set hx _ _ row hrow

set_option maxRecDepth 100000 in
/-- C15 (counterexample): the board built by `initialModel()` has 20 rows of 30
cells, but its cell `(29, 8)` holds the zero rune, which is none of the four
cell types; 17 of its cells do. -/
theorem board_cells_counterexample :
    BoardShape initialModel.board ∧ cellAt initialModel.board 29 8 = some 0 ∧
      ¬CellType 0 ∧ countZeros initialModel.board = 17 ∧
      ¬(∀ row ∈ initialModel.board, ∀ c ∈ row, CellType c) :=
  ⟨by decide, by decide, by decide, by decide, by decide⟩

/-- C15 (amended): in every session reachable from `initialModel()` the board
has 20 rows of 30 cells and every cell is `wall`, `dot`, `powerPellet`,
`emptySpace` or the zero rune (left by `make` where the maze row has fewer than
30 characters); and a tick changes the board at most by writing `emptySpace`
over a dot or a power pellet. -/
theorem board_cells (m : Model) (h : Reachable m) :
    BoardShape m.board ∧ (∀ row ∈ m.board, ∀ c ∈ row, CellType c ∨ c = 0) ∧
      ∀ (r : Rand) (m1 : Model) (r1 : Rand), tick m r = some (m1, r1) →
        ∀ x y : Int, cellAt m1.board x y = cellAt m.board x y ∨
          ((cellAt m.board x y = some dot ∨ cellAt m.board x y = some powerPellet) ∧
            cellAt m1.board x y = some emptySpace) := by
  have hI := inv_reachable m h
  refine ⟨hI.1.2.2, cellsOK_reachable m h, ?_⟩
  intro r m1 r1 ht x y
  rcases tick_board m m1 r r1 hI.1 ht with e | ⟨row, hx, hy, hrow, hcell, e⟩
  · left
    rw [e]
  · rw [e]
    by_cases he : (x, y) = pacmanCandidate m
    · right
      have e1 : x = (pacmanCandidate m).1 := by rw [← he]
      have e2 : y = (pacmanCandidate m).2 := by rw [← he]
      rw [e1, e2]
      rcases hcell with hc | hc
      · exact ⟨Or.inl (cellAt_eq_some.2 ⟨hx, hy, row, hrow, hc⟩),
          cellAt_set_self emptySpace row hx hy hrow hc⟩
      · exact ⟨Or.inr (cellAt_eq_some.2 ⟨hx, hy, row, hrow, hc⟩),
          cellAt_set_self emptySpace row hx hy hrow hc⟩
    · left
      exact cellAt_set_other emptySpace row hx hy hrow x y he

set_option maxRecDepth 100000 in
/-- Witness for C15 (amended) on the session reached by `eatenGhostTrace`. -/
theorem board_cells_witness :
    BoardShape eatenGhostSession.board ∧
      (∀ row ∈ eatenGhostSession.board, ∀ c ∈ row, CellType c ∨ c = 0) ∧
      ∀ (r : Rand) (m1 : Model) (r1 : Rand), tick eatenGhostSession r = some (m1, r1) →
        ∀ x y : Int, cellAt m1.board x y = cellAt eatenGhostSession.board x y ∨
          ((cellAt eatenGhostSession.board x y = some dot ∨
              cellAt eatenGhostSession.board x y = some powerPellet) ∧
            cellAt m1.board x y = some emptySpace) :=
  board_cells eatenGhostSession eatenGhost_reachable

/-! ### C17: the player never stands on a wall -/

theorem ghostCollide_pacman (i : Nat) (g : Ghost) (m : Model) :
    ((ghostCollide i g m).pacmanX = m.pacmanX ∧ (ghostCollide i g m).pacmanY = m.pacmanY) ∨
      ((ghostCollide i g m).pacmanX = 1 ∧ (ghostCollide i g m).pacmanY = 1) := by
  unfold ghostCollide
  split_ifs
  · exact Or.inl ⟨rfl, rfl⟩
  · exact Or.inl ⟨rfl, rfl⟩
  · exact Or.inr ⟨rfl, rfl⟩
  · exact Or.inl ⟨rfl, rfl⟩

theorem ghostStep_pacman {i : Nat} {m m1 : Model} {r r1 : Rand}
    (h : ghostStep i m r = some (m1, r1)) :
    (m1.pacmanX = m.pacmanX ∧ m1.pacmanY = m.pacmanY) ∨ (m1.pacmanX = 1 ∧ m1.pacmanY = 1) := by
  unfold ghostStep at h
  cases hm : ghostMoved i m r with
  | none => simp [hm] at h
  | some p =>
    simp only [hm, Option.some.injEq, Prod.mk.injEq] at h
    rw [← h.1]
    exact ghostCollide_pacman i p.1 { m with ghosts := m.ghosts.set i p.1 }

theorem notWall_movePacman (m ma : Model) (hwf : WellFormed m)
    (hp : NotWall m.board m.pacmanX m.pacmanY) (hs : NotWall m.board 1 1)
    (h : movePacman m = some ma) :
    NotWall ma.board ma.pacmanX ma.pacmanY ∧ NotWall ma.board 1 1 := by
  have hew : emptySpace ≠ wall := by decide
  obtain ⟨m2, h2, hP⟩ := movePacman_elim m hwf
    (fun ma => NotWall ma.board ma.pacmanX ma.pacmanY ∧ NotWall ma.board 1 1)
    (fun _ => ⟨hp, hs⟩)
    (fun c hc h1 _ _ => ⟨⟨c, hc, h1⟩, hs⟩)
    (by
      intro row hc hrow hcell
      obtain ⟨hx, hy, _⟩ := cellAt_eq_some.1 hc
      exact ⟨⟨emptySpace, cellAt_set_self emptySpace row hx hy hrow hcell, hew⟩,
        notWall_set row hx hy hrow hcell 1 1 hs⟩)
    (by
      intro row hc hrow hcell
      obtain ⟨hx, hy, _⟩ := cellAt_eq_some.1 hc
      exact ⟨⟨emptySpace, cellAt_set_self emptySpace row hx hy hrow hcell, hew⟩,
        notWall_set row hx hy hrow hcell 1 1 hs⟩)
  rw [movePacman_some_unique h h2]
  exact hP

theorem notWall_tick (m m1 : Model) (r r1 : Rand) (hI : Inv m) (hB : Bounds m)
    (hX : NotWall m.board m.pacmanX m.pacmanY ∧ NotWall m.board 1 1)
    (hplay : m.gameState = playing) (ht : tick m r = some (m1, r1)) :
    NotWall m1.board m1.pacmanX m1.pacmanY ∧ NotWall m1.board 1 1 := by
  obtain ⟨ma, mb, ha, _, _, hb, _, _, _, hm1⟩ := tick_stages m m1 r r1 hI hB hplay ht
  obtain ⟨a1, a2⟩ := notWall_movePacman m ma hI.1 hX.1 hX.2 ha
  obtain ⟨_, _, _, c4, c5, c6, _⟩ := checkWin_fields ma
  have hloop := ghostLoop_preserves
    (fun x => x.board = ma.board ∧ NotWall ma.board x.pacmanX x.pacmanY)
    (by
      intro i x rx x1 rx1 hx hs
      refine ⟨(ghostStep_frame hs).1.trans hx.1, ?_⟩
      rcases ghostStep_pacman hs with ⟨e1, e2⟩ | ⟨e1, e2⟩
      · rw [e1, e2]; exact hx.2
      · rw [e1, e2]; exact a2)
    _ _ _ _ _ ⟨c4, by rw [c5, c6]; exact a1⟩ hb
  obtain ⟨_, _, _, u4, _, u6, u7⟩ := updatePowerTimer_fields mb
  rw [hm1, u4, u6, u7, hloop.1]
  exact ⟨hloop.2, a2⟩

theorem notWall_reachable (m : Model) (h : Reachable m) :
    NotWall m.board m.pacmanX m.pacmanY ∧ NotWall m.board 1 1 := by
  apply reachable_induction_inv
    (fun x => NotWall x.board x.pacmanX x.pacmanY ∧ NotWall x.board 1 1) _ _ _ m h
  · exact ⟨⟨dot, by decide, by decide⟩, ⟨dot, by decide, by decide⟩⟩
  · intro x d gs _ _ hx _
    exact hx
  · intro x r x1 r1 hI hB hx hplay ht
    exact notWall_tick x x1 r r1 hI hB hx hplay ht

/-- C17: in every session reachable from `initialModel()` by ticks (whatever the
random draws) and key inputs, the cell at the player's position is not a wall,
and neither is the start and reset cell `(1, 1)`. -/
theorem player_not_on_wall (m : Model) (h : Reachable m) :
    (∃ c, cellAt m.board m.pacmanX m.pacmanY = some c ∧ c ≠ wall) ∧
      ∃ c, cellAt m.board 1 1 = some c ∧ c ≠ wall :=
  notWall_reachable m h

set_option maxRecDepth 100000 in
/-- Witness for C17 on the session reached by `eatenGhostTrace`. -/
theorem player_not_on_wall_witness :
    (∃ c, cellAt eatenGhostSession.board eatenGhostSession.pacmanX
        eatenGhostSession.pacmanY = some c ∧ c ≠ wall) ∧
      ∃ c, cellAt eatenGhostSession.board 1 1 = some c ∧ c ≠ wall :=
  player_not_on_wall eatenGhostSession eatenGhost_reachable

/-! ### C18: the ghost slots -/

set_option maxRecDepth 100000 in
/-- C18 (the code at the failing input): in `initialModel()` itself ghosts 0 and
1 stand on `(14, 10)` and `(15, 10)`, which are wall cells of the board; the
slots `(14, 11)` and `(15, 11)` of ghosts 2 and 3 are empty cells. -/
theorem ghost_slots_on_walls :
    Reachable initialModel ∧
      initialModel.ghosts.map (fun g => (g.x, g.y)) =
        [(14, 10), (15, 10), (14, 11), (15, 11)] ∧
      cellAt initialModel.board 14 10 = some wall ∧
      cellAt initialModel.board 15 10 = some wall ∧
      cellAt initialModel.board 14 11 = some emptySpace ∧
      cellAt initialModel.board 15 11 = some emptySpace :=
  ⟨Reachable.init, by decide, by decide, by decide, by decide, by decide⟩

/-! ### C16: how long power mode lasts -/

set_option maxRecDepth 100000 in
/-- C16 (the code at the failing input): the player eats the power pellet of
`(1, 3)` on tick `t` (`afterPelletSession`, one pellet left on the board); the
game stays playing and no pellet is eaten in the ticks that follow.
`powerMode` is true at the end of tick `t` (timer 19) and at the end of tick
`t + 18` (timer 1), and false at the end of tick `t + 19`. -/
theorem power_mode_ends_early :
    Reachable afterPelletSession ∧
      powerView afterPelletSession = (playing, true, 19, 1) ∧
      (powerRun 18).map powerView = some (playing, true, 1, 1) ∧
      (powerRun 19).map powerView = some (playing, false, 0, 1) :=
  ⟨afterPellet_reachable, by decide, by decide, by decide⟩

/-! ### C19: frightened ghosts and power mode -/

theorem ghostDecay_frightened (g : Ghost) (h : (ghostDecay g).frightened = true) :
    g.frightened = true ∧ (ghostDecay g).frightenedTimer = g.frightenedTimer - 1 := by
  by_cases h1 : g.frightened = true
  · by_cases h2 : g.frightenedTimer - 1 ≤ 0
    · unfold ghostDecay at h
      rw [if_pos h1, if_pos h2] at h
      simp at h
    · unfold ghostDecay
      rw [if_pos h1, if_neg h2]
      exact ⟨h1, rfl⟩
  · unfold ghostDecay at h
    rw [if_neg h1] at h
    exact absurd h h1

/-- What the step of ghost `i` does to the ghosts: only ghost `i` changes, and if
it is frightened afterwards it was frightened before, with a timer one higher. -/
theorem ghostStep_ghosts {i : Nat} {m m1 : Model} {r r1 : Rand} (hwf : WellFormed m)
    (h : ghostStep i m r = some (m1, r1)) :
    ∃ g0 g1, m.ghosts[i]? = some g0 ∧ m1.ghosts = m.ghosts.set i g1 ∧
      (g1.frightened = true →
        g0.frightened = true ∧ g1.frightenedTimer = g0.frightenedTimer - 1) := by
  have hi := ghostStep_index h
  have hg0 : m.ghosts[i]? = some m.ghosts[i] := List.getElem?_eq_getElem hi
  obtain ⟨m2, r2, h2, hP⟩ := ghostStep_elim m hwf i _ hg0 r
    (fun x => ∃ g1, x.ghosts = m.ghosts.set i g1 ∧
      (g1.frightened = true →
        m.ghosts[i].frightened = true ∧ g1.frightenedTimer = m.ghosts[i].frightenedTimer - 1))
    (by
      intro g hf1 hf2 _
      have hg : g.frightened = true →
          m.ghosts[i].frightened = true ∧
            g.frightenedTimer = m.ghosts[i].frightenedTimer - 1 := by
        intro hf
        rw [hf1] at hf
        rw [hf2]
        exact ghostDecay_frightened _ hf
      unfold ghostCollide
      split_ifs
      · refine ⟨Ghost.mk (14 + ((i % 2 : Nat) : Int)) (10 + ((i / 2 : Nat) : Int))
          g.direction false g.frightenedTimer, ?_, ?_⟩
        · show (m.ghosts.set i g).set i _ = m.ghosts.set i _
          rw [List.set_set]
        · intro hf
          simp at hf
      · exact ⟨g, rfl, hg⟩
      · exact ⟨g, rfl, hg⟩
      · exact ⟨g, rfl, hg⟩)
  rw [ghostStep_some_unique h h2]
  obtain ⟨g1, e1, e2⟩ := hP
  exact ⟨m.ghosts[i], g1, hg0, e1, e2⟩

/-- The ghost loop over distinct indices `is`: if every frightened ghost still
to be stepped has timer `T` and every other frightened ghost has timer `T - 1`,
then after the loop every frightened ghost has timer `T - 1`; and a frightened
ghost after the loop was frightened before (`Q` is what was known of those). -/
theorem ghostLoop_sync (T : Int) (Q : Prop) : ∀ (is : List Nat) (m m1 : Model) (r r1 : Rand),
    is.Nodup → WellFormed m →
    (∀ (i : Nat) (g : Ghost), m.ghosts[i]? = some g → g.frightened = true →
      Q ∧ (i ∈ is → g.frightenedTimer = T) ∧ (i ∉ is → g.frightenedTimer = T - 1)) →
    ghostLoop is m r = some (m1, r1) →
    ∀ (i : Nat) (g : Ghost), m1.ghosts[i]? = some g → g.frightened = true →
      Q ∧ g.frightenedTimer = T - 1 := by
  intro is
  induction is with
  | nil =>
    intro m m1 r r1 _ _ hm h i g hg hf
    simp only [ghostLoop, Option.some.injEq, Prod.mk.injEq] at h
    rw [← h.1] at hg
    obtain ⟨q, _, h2⟩ := hm i g hg hf
    exact ⟨q, h2 (List.not_mem_nil i)⟩
  | cons j rest ih =>
    intro m m1 r r1 hnd hwf hm h
    simp only [ghostLoop] at h
    cases hs : ghostStep j m r with
    | none => simp [hs] at h
    | some p =>
      simp only [hs] at h
      have hj := ghostStep_index hs
      obtain ⟨g0, g1, e0, e1, e2⟩ := ghostStep_ghosts hwf hs
      have hnd2 := List.nodup_cons.1 hnd
      apply ih p.1 m1 p.2 r1 hnd2.2 (wellFormed_of_frame (ghostStep_frame hs) hwf) _ h
      intro i g hg hf
      rw [e1] at hg
      by_cases hij : j = i
      · subst hij
        rw [List.getElem?_set_self hj] at hg
        have hgg : g1 = g := Option.some.inj hg
        subst hgg
        obtain ⟨f0, ft⟩ := e2 hf
        obtain ⟨q, h1, _⟩ := hm j g0 e0 f0
        have ht := h1 (List.mem_cons_self j rest)
        refine ⟨q, fun hin => absurd hin hnd2.1, fun _ => ?_⟩
        rw [ft, ht]
      · rw [List.getElem?_set_ne hij] at hg
        obtain ⟨q, h1, h2⟩ := hm i g hg hf
        refine ⟨q, fun hin => h1 (List.mem_cons_of_mem j hin), fun hin => h2 ?_⟩
        intro hmem
        rcases List.mem_cons.1 hmem with e | e
        · exact hij e.symm
        · exact hin e

theorem synced_movePacman (m ma : Model) (hwf : WellFormed m) (hX : Synced m)
    (h : movePacman m = some ma) : Synced ma := by
  rcases movePacman_power m ma hwf h with ⟨_, p1, p2, p3⟩ | ⟨_, p1, p2, p3⟩
  · intro g hg hf
    rw [p3] at hg
    rw [p1, p2]
    exact hX g hg hf
  · intro g hg _
    rw [p3] at hg
    simp only [frightenAll, List.mem_map] at hg
    obtain ⟨g0, _, rfl⟩ := hg
    rw [p1, p2]
    exact ⟨rfl, rfl⟩

theorem synced_tick (m m1 : Model) (r r1 : Rand) (hI : Inv m) (hB : Bounds m) (hX : Synced m)
    (hplay : m.gameState = playing) (ht : tick m r = some (m1, r1)) : Synced m1 := by
  obtain ⟨ma, mb, ha, hIa, _, hb, hIb, hBb, hf, hm1⟩ := tick_stages m m1 r r1 hI hB hplay ht
  have hXa := synced_movePacman m ma hI.1 hX ha
  obtain ⟨c1, c2, c3, _⟩ := checkWin_fields ma
  have e1 : mb.powerMode = ma.powerMode := hf.2.2.2.2.1.trans c1
  have e2 : mb.powerTimer = ma.powerTimer := hf.2.2.2.2.2.1.trans c2
  have hsync := ghostLoop_sync ma.powerTimer (ma.powerMode = true)
    (List.range (checkWin ma).ghosts.length) (checkWin ma) mb r r1 (List.nodup_range _)
    (wellFormed_checkWin ma hIa.1)
    (by
      intro i g hg hfr
      rw [c3] at hg
      obtain ⟨t1, t2⟩ := hXa g (List.getElem?_mem hg) hfr
      refine ⟨t2, fun _ => t1, fun hin => ?_⟩
      exfalso
      apply hin
      rw [List.mem_range, c3]
      exact (List.getElem?_eq_some.1 hg).1)
    hb
  intro g hg hfr
  rw [hm1, (updatePowerTimer_fields mb).2.2.2.2.1] at hg
  obtain ⟨i, hi⟩ := List.mem_iff_getElem?.1 hg
  obtain ⟨q, ht1⟩ := hsync i g hi hfr
  have hpos : 0 < g.frightenedTimer := hIb.2.2.2.2.2 g hg hfr
  have hpb : mb.powerMode = true := by rw [e1]; exact q
  obtain ⟨u1, _, u3⟩ := (updatePowerTimer_power mb hBb.2.2.2.2.1).1 hpb
  rw [hm1, u1, e2]
  refine ⟨ht1, u3.2 ?_⟩
  rw [u1, e2]
  omega

theorem synced_reachable (m : Model) (h : Reachable m) : Synced m := by
  apply reachable_induction_inv Synced _ _ _ m h
  · decide
  · intro x d gs _ _ hx _
    exact hx
  · intro x r x1 r1 hI hB hx hplay ht
    exact synced_tick x x1 r r1 hI hB hx hplay ht

/-- C19: in every session reachable from `initialModel()` by ticks (whatever the
random draws) and key inputs, every frightened ghost has `frightenedTimer` equal
to the session's `powerTimer`, and `powerMode` is true: no ghost is frightened
while power mode is off. -/
theorem frightened_synced_with_power (m : Model) (h : Reachable m) (g : Ghost)
    (hg : g ∈ m.ghosts) (hf : g.frightened = true) :
    g.frightenedTimer = m.powerTimer ∧ m.powerMode = true :=
  synced_reachable m h g hg hf

set_option maxRecDepth 100000 in
/-- Witness for C19: ghost 0 of the session reached by `eatenGhostTrace` is
frightened, its timer and the power timer both at 10. -/
theorem frightened_synced_with_power_witness :
    (Ghost.mk 14 10 up true 10).frightenedTimer = eatenGhostSession.powerTimer ∧
      eatenGhostSession.powerMode = true :=
  frightened_synced_with_power eatenGhostSession eatenGhost_reachable
    (Ghost.mk 14 10 up true 10) (by decide) rfl

end Pacman
